import Mathlib

/-!
Verification of the w3vm front end: the tokenizer in `src/lex.rs` and the
string-interning table in `src/symbol.rs`.

Embedding conventions.

* Source text is a `List Char`; positions are character indices into that
  list.  Every offset computation in the Rust source (`+ 1`, `+ 2`, `- 1`,
  `+ max_op_len`, slicing at offsets produced by `CharIndices`) either
  involves single-byte characters or consumes a full matched prefix, so the
  character-index model agrees with the byte-offset model everywhere the
  lexer uses an offset.
* The cursor (`chars: CharIndices` plus the `reversed` pushback `Vec`) is
  modelled as one list `List (Nat × Char)` whose head is the next `tick`
  result: popping `reversed` and advancing `chars` are both "take the
  head", and `untick` is "cons".  A `tick` on the empty list yields the
  synthetic end-of-input sentinel `(source.len(), '\x00')`, exactly as
  `Lexer::tick` does.
* Panics (`unwrap` on out-of-range numeric literals, the `assert!` at the
  end of `next`, `u32::from_str_radix("").unwrap()` for an empty `\u`
  escape) are modelled as `Except.error` with a distinguishing message, as
  is the one spot where the operator-consumption loop would fail to
  terminate.
* `f64` values are kept symbolic: `Number::F64` carries the exact literal
  text handed to `str::parse::<f64>` (which never fails on the strings the
  scanner builds, so no panic case is modelled there).
* `Arc<String>` pointer identity in `symbol.rs` is modelled by tagging each
  freshly allocated `Symbol` with the minting table's id and a per-table
  allocation counter; `Symbol::eq` (pointer comparison of the shared text)
  is equality of those tags.
* `unicode_xid`'s `is_xid_start` / `is_xid_continue` and `char::is_whitespace`
  are external crate/std tables; they are modelled on their ASCII fragment
  (which is exact for every character the lexer treats specially, in
  particular `'\x00'` is in none of the classes).
-/

set_option autoImplicit false

namespace W3vm

/-- Character strings, modelled as lists of characters. -/
abbrev Str := List Char

/-! ## `src/val.rs` (the fragment the lexer uses) -/

/-- `val::Number`: the tagged numeric variants produced by the lexer.
`I64` and `U64` carry the parsed value; `F64` carries the exact literal
text passed to `str::parse::<f64>` (the float value is kept symbolic). -/
inductive Number where
  | I64 : Int → Number
  | U64 : Nat → Number
  | F64 : String → Number
  deriving DecidableEq, Repr

/-! ## `src/symbol.rs` -/

/-- `symbol::Symbol`: a handle to interned text.  `tableId` and `symId`
together model the address of the `Arc<String>` allocation backing the
handle: a fresh allocation is made once per distinct text per table. -/
structure Symbol where
  text : Str
  tableId : Nat
  symId : Nat
  deriving DecidableEq, Repr

/-- `PartialEq for Symbol`: pointer equality of the shared text allocation
(release builds do not check the minting table). -/
def Symbol.ptrEq (a b : Symbol) : Bool :=
  a.tableId == b.tableId && a.symId == b.symId

/-- `symbol::Table`: maps raw text to its interned `Symbol`.  `tid` models
the table instance's own address, `counter` the number of allocations made
so far. -/
structure Table where
  tid : Nat
  counter : Nat
  entries : List (Str × Symbol)
  deriving DecidableEq, Repr

/-- `Table::new`, parameterised by the fresh instance's identity. -/
def Table.new (t : Nat) : Table := ⟨t, 0, []⟩

/-- `Table::intern`: return the stored handle if the text was interned
before, otherwise allocate a new `Symbol` and store it. -/
def Table.intern (tbl : Table) (s : Str) : Symbol × Table :=
  match tbl.entries.lookup s with
  | some sym => (sym, tbl)
  | none =>
    let sym : Symbol := ⟨s, tbl.tid, tbl.counter⟩
    (sym, ⟨tbl.tid, tbl.counter + 1, (s, sym) :: tbl.entries⟩)

/-- `Table::is_interned`. -/
def Table.is_interned (tbl : Table) (s : Str) : Bool :=
  (tbl.entries.lookup s).isSome

/-! ## Character classes used by the lexer -/

/-- Models `UnicodeXID::is_xid_start` from the external `unicode_xid`
crate, restricted to its ASCII fragment (exact for all characters the
lexer compares against explicitly; in particular `is_xid_start '\x00' =
false`). -/
def is_xid_start (c : Char) : Bool := c.isAlpha

/-- Models `UnicodeXID::is_xid_continue` (ASCII fragment; underscore is a
continue character but not a start character). -/
def is_xid_continue (c : Char) : Bool := c.isAlpha || c.isDigit || c == '_'

/-- Models `char::is_whitespace` (ASCII fragment of Unicode White_Space;
`'\x00'` is not whitespace). -/
def is_whitespace (c : Char) : Bool :=
  c == ' ' || c == '\t' || c == '\n' || c == '\r'

/-- `char::to_digit(radix)`: digits `0-9` then letters for values 10+,
valid when the value is below the radix. -/
def to_digit (c : Char) (radix : Nat) : Option Nat :=
  let d? : Option Nat :=
    if '0'.toNat ≤ c.toNat && c.toNat ≤ '9'.toNat then some (c.toNat - '0'.toNat)
    else if 'a'.toNat ≤ c.toNat && c.toNat ≤ 'z'.toNat then some (c.toNat - 'a'.toNat + 10)
    else if 'A'.toNat ≤ c.toNat && c.toNat ≤ 'Z'.toNat then some (c.toNat - 'A'.toNat + 10)
    else none
  match d? with
  | some d => if d < radix then some d else none
  | none => none

/-- `char::from_u32`: `some` exactly on scalar values. -/
def charFromU32 (n : Nat) : Option Char :=
  if n.isValidChar then some (Char.ofNat n) else none

/-- The numeric value of a digit string (all characters are valid digits
of the radix at every call site). -/
def digitsToNat (radix : Nat) (s : Str) : Nat :=
  s.foldl (fun acc c => acc * radix + ((to_digit c radix).getD 0)) 0

/-- `i64::MAX`; `str::parse::<i64>` on an unsigned digit string succeeds
exactly when the value is at most this bound. -/
def i64Max : Nat := 9223372036854775807

/-- `u64::MAX`; `u64::from_str_radix` succeeds exactly when the value is
at most this bound. -/
def u64Max : Nat := 18446744073709551615

/-! ## `src/lex.rs`: token type -/

/-- `lex::Token`. -/
inductive Token where
  | Identifier : Symbol → Token
  | Number : W3vm.Number → Token
  | String : Str → Token
  | BrokenString : Str → Token
  | Error : Str → Token
  | Comment : Str → Token
  | BrokenComment : Str → Token
  | Whitespace : Symbol → Token
  | Operator : Symbol → Token
  deriving DecidableEq, Repr

/-! ## Error-token message texts from `lex.rs` -/

def escTooShortMsg : Str := "numeric character escape is too short".data

def escRangeMsg : Str :=
  "this form of character escape may only be used with characters in the range [\\x00-\\x7f]".data

def escBadUnicodeMsg : Str := "incorrect unicode escape sequence".data

def escOverlongMsg : Str :=
  "overlong unicode escape (can have at most 6 hex digits)".data

def escInvalidCharMsg (c : Char) : Str :=
  "invalid character in unicode escape: ".data ++ [c]

def escInvalidUnicodeMsg : Str := "invalid unicode character escape".data

/-! ## Panic / divergence markers -/

def panicI64Msg : String := "panic: decimal literal out of i64 range"
def panicU64Msg : String := "panic: radix literal out of u64 range"
def panicEmptyUnicodeMsg : String := "panic: empty unicode escape"
def panicAssertMsg : String := "panic: assertion first_char is NUL failed"
def panicDivergeMsg : String := "diverge: operator consumption loop"

/-! ## The cursor -/

/-- `Lexer::tick` on the fused pushback/`CharIndices` stream: pop the head,
or synthesize the `(source.len(), '\x00')` sentinel when exhausted. -/
def tick (len : Nat) : List (Nat × Char) → (Nat × Char) × List (Nat × Char)
  | [] => ((len, '\x00'), [])
  | x :: s => (x, s)

/-- `&self.source[a..b]` at character indices. -/
def sliceStr (src : Str) (a b : Nat) : Str := (src.drop a).take (b - a)

/-- The position of the next character the cursor will yield. -/
def streamPos (len : Nat) : List (Nat × Char) → Nat
  | [] => len
  | (i, _) :: _ => i

/-- The `lexer` state: `struct Lexer` with `chars` and `reversed` fused
into `stream`. -/
structure Lexer where
  source : Str
  stream : List (Nat × Char)
  table : Table
  operators : List Str
  deriving DecidableEq, Repr

/-! ## Sub-scanners -/

/-- The maximal-run loops of the identifier, whitespace and digit
scanners: tick characters while `pred` holds, then push the first
non-matching pair back and return its index.  (A sentinel tick behaves
like any other character here because none of the three predicates used
holds on `'\x00'`.) -/
def scanRun (len : Nat) (pred : Char → Bool) : List (Nat × Char) → Nat × List (Nat × Char)
  | [] => (len, [(len, '\x00')])
  | (i, c) :: s => if pred c then scanRun len pred s else (i, (i, c) :: s)

/-- The predicate of the decimal digit/underscore runs. -/
def isDigitU (c : Char) : Bool := (to_digit c 10).isSome || c == '_'

/-- The radix-digit run of the `0x`/`0o`/`0b` scanner (lines 179-185):
tick while a valid radix digit or underscore, and return the index of the
first other character, which is consumed and dropped, not pushed back. -/
def radixRun (len radix : Nat) : List (Nat × Char) → Nat × List (Nat × Char)
  | [] => (len, [])
  | (i, c) :: s =>
    if (to_digit c radix).isSome || c == '_' then radixRun len radix s
    else (i, s)

/-- The tail of the decimal scanner from line 139: the optional exponent
part, the final un-ticks, and the construction of the `Number` token. -/
def lexDecimalExp (src : Str) (len first_index last_index : Nat) (saw_decimal : Bool)
    (s : List (Nat × Char)) : Except String (Token × List (Nat × Char)) :=
  let finish := fun (lastIdx : Nat) (sawExp : Bool) (s1 : List (Nat × Char)) =>
    let t := (sliceStr src first_index lastIdx).filter (fun c => c != '_')
    if sawExp || saw_decimal then
      Except.ok (Token.Number (Number.F64 (String.mk t)), s1)
    else if digitsToNat 10 t ≤ i64Max then
      Except.ok (Token.Number (Number.I64 (digitsToNat 10 t)), s1)
    else Except.error panicI64Msg
  let ((i3, c3), s1) := tick len s
  if c3 == 'e' || c3 == 'E' then
    let ((i4, c4), s2) := tick len s1
    if (to_digit c4 10).isSome then
      let (last2, s3) := scanRun len isDigitU s2
      finish last2 true s3
    else
      -- inner untick of the non-digit, then (saw_exponent is false)
      -- the outer untick of the marker itself
      finish last_index false ((i3, c3) :: (i4, c4) :: s2)
  else
    finish last_index false ((i3, c3) :: s1)

/-- The number scanner (lines 102-192). -/
def lexNumber (src : Str) (len first_index digit : Nat)
    (s0 : List (Nat × Char)) : Except String (Token × List (Nat × Char)) :=
  let ((second_index, second_char), s1) := tick len s0
  if (to_digit second_char 10).isSome || second_char == '_' || second_char == '.' ||
      second_char == 'e' || second_char == 'E' then
    -- decimal (integer or floating point); untick the second character
    let s2 := (second_index, second_char) :: s1
    let (last1, s3) := scanRun len isDigitU s2
    let ((i2, c2), s4) := tick len s3
    if c2 == '.' then
      let (last2, s5) := scanRun len isDigitU s4
      lexDecimalExp src len first_index last2 true s5
    else
      lexDecimalExp src len first_index last1 false ((i2, c2) :: s4)
  else
    if digit == 0 then
      match (if second_char == 'x' then some 16
             else if second_char == 'o' then some 8
             else if second_char == 'b' then some 2
             else none : Option Nat) with
      | some radix =>
        let ((third_index, third_char), s2) := tick len s1
        if (to_digit third_char radix).isSome then
          let (endIdx, s3) := radixRun len radix s2
          let t := (sliceStr src third_index endIdx).filter (fun c => c != '_')
          if digitsToNat radix t ≤ u64Max then
            Except.ok (Token.Number (Number.U64 (digitsToNat radix t)), s3)
          else Except.error panicU64Msg
        else
          -- untick third, untick second, fall through to line 191 which
          -- unticks second once more before returning the single digit
          Except.ok (Token.Number (Number.I64 digit),
            (second_index, second_char) :: (second_index, second_char) ::
              (third_index, third_char) :: s2)
      | none =>
        Except.ok (Token.Number (Number.I64 digit), (second_index, second_char) :: s1)
    else
      Except.ok (Token.Number (Number.I64 digit), (second_index, second_char) :: s1)

/-- Result of the `\u\x7b...\x7d` digit loop (lines 244-255). -/
inductive UScan where
  | err : Str → UScan
  | close : Nat → UScan
  deriving DecidableEq, Repr

/-- The `for i in 0..8` loop of the `\u` escape: stop at the closing
brace, reject an overlong escape at the seventh character, reject a
non-hex digit.  (`i` never exceeds 6, so the `0..8` bound never binds.) -/
def uEscLoop (i : Nat) : List (Nat × Char) → UScan × List (Nat × Char)
  | [] =>
    if i == 6 then (UScan.err escOverlongMsg, [])
    else (UScan.err (escInvalidCharMsg '\x00'), [])
  | (idx, c) :: s =>
    if c == '}' then (UScan.close idx, s)
    else if i == 6 then (UScan.err escOverlongMsg, s)
    else if (to_digit c 16).isSome then uEscLoop (i + 1) s
    else (UScan.err (escInvalidCharMsg c), s)

theorem uEscLoop_len (i : Nat) (s : List (Nat × Char)) :
    (uEscLoop i s).2.length ≤ s.length := by
  induction s generalizing i with
  | nil => simp only [uEscLoop]; split <;> simp
  | cons x s ih =>
    obtain ⟨idx, c⟩ := x
    simp only [uEscLoop]
    split
    · simp
    · split
      · simp
      · split
        · exact Nat.le_trans (ih (i + 1)) (by simp)
        · simp

/-- The string-literal loop (lines 206-269).  `si` is `second_index`, the
index just after the opening quote; `out` is the decoded `output`. -/
def strLoop (src : Str) (si : Nat) (out : Str) :
    List (Nat × Char) → Except String (Token × List (Nat × Char))
  | [] => Except.ok (Token.BrokenString (sliceStr src si src.length), [])
  | (i, c) :: s =>
    if c == '\x00' then Except.ok (Token.BrokenString (sliceStr src si i), s)
    else if c == '\\' then
      match s with
      | [] => Except.ok (Token.BrokenString (sliceStr src si src.length), [])
      | (j, e) :: s2 =>
        if e == '\x00' then Except.ok (Token.BrokenString (sliceStr src si j), s2)
        else if e == 'n' then strLoop src si (out ++ ['\n']) s2
        else if e == 't' then strLoop src si (out ++ ['\t']) s2
        else if e == '\\' then strLoop src si (out ++ ['\\']) s2
        else if e == '"' then strLoop src si (out ++ ['"']) s2
        else if e == 'x' then
          match s2 with
          | [] => Except.ok (Token.Error escTooShortMsg, [])
          | (_, h1) :: s3 =>
            match s3 with
            | [] =>
              -- the second hex tick yields the sentinel, whose digit
              -- value is `none`
              Except.ok (Token.Error escTooShortMsg, [])
            | (_, h2) :: s4 =>
              match to_digit h1 16, to_digit h2 16 with
              | some a, some b =>
                match charFromU32 (a * 16 + b) with
                | some ch => strLoop src si (out ++ [ch]) s4
                | none => Except.ok (Token.Error escRangeMsg, s4)
              | some _, none => Except.ok (Token.Error escTooShortMsg, s4)
              | none, some _ => Except.ok (Token.Error escTooShortMsg, s4)
              | none, none => Except.ok (Token.Error escTooShortMsg, s4)
        else if e == 'u' then
          match s2 with
          | [] => Except.ok (Token.Error escBadUnicodeMsg, [])
          | (ob, c3) :: s3 =>
            if c3 == '{' then
              match h : uEscLoop 0 s3 with
              | (UScan.err msg, s4) => Except.ok (Token.Error msg, s4)
              | (UScan.close endIdx, s4) =>
                let hex := sliceStr src (ob + 1) endIdx
                if hex.isEmpty then Except.error panicEmptyUnicodeMsg
                else
                  match charFromU32 (digitsToNat 16 hex) with
                  | some ch => strLoop src si (out ++ [ch]) s4
                  | none => Except.ok (Token.Error escInvalidUnicodeMsg, s4)
            else Except.ok (Token.Error escBadUnicodeMsg, s3)
        else
          -- an unrecognized escape character is consumed and dropped
          strLoop src si out s2
    else if c == '"' then Except.ok (Token.String out, s)
    else strLoop src si (out ++ [c]) s
  termination_by s => s.length
  decreasing_by
    all_goals first
      | (simp only [List.length_cons]; omega)
      | (rename_i tl hbrace; have hl := uEscLoop_len 0 tl; rw [h] at hl
         simp only [List.length_cons] at *; omega)

/-- The string scanner entry (lines 193-205): the capacity guess is
irrelevant, but the bounds check returns an empty `BrokenString` when the
opening quote is the last character. -/
def lexString (src : Str) (len first_index : Nat)
    (s0 : List (Nat × Char)) : Except String (Token × List (Nat × Char)) :=
  let second_index := first_index + 1
  if second_index < len then strLoop src second_index [] s0
  else Except.ok (Token.BrokenString [], s0)

/-- The block-comment loop (lines 276-297).  `fi` is `first_index`; a `/`
or `*` consumes the following character as well, adjusting the depth when
the two form a delimiter. -/
def commentLoop (src : Str) (fi last depth : Nat) :
    List (Nat × Char) → Token × List (Nat × Char)
  | [] => (Token.BrokenComment (src.drop (fi + 2)), [])
  | (_, c) :: s =>
    if c == '/' then
      match s with
      | [] => (Token.BrokenComment (src.drop (fi + 2)), [])
      | (_, c2) :: s2 =>
        commentLoop src fi last (if c2 == '*' then depth + 1 else depth) s2
    else if c == '*' then
      match s with
      | [] => (Token.BrokenComment (src.drop (fi + 2)), [])
      | (j, c2) :: s2 =>
        if c2 == '/' then
          if depth == 1 then (Token.Comment (sliceStr src (fi + 2) (j - 1)), s2)
          else commentLoop src fi (j - 1) (depth - 1) s2
        else commentLoop src fi last depth s2
    else if c == '\x00' then (Token.BrokenComment (src.drop (fi + 2)), s)
    else commentLoop src fi last depth s

/-- Byte-lexicographic order on operator spellings, as `Ord` on Rust
`String` compares (UTF-8 byte order coincides with code-point order). -/
def lexLt : Str → Str → Bool
  | [], [] => false
  | [], _ :: _ => true
  | _ :: _, [] => false
  | a :: as, b :: bs => decide (a < b) || (a == b && lexLt as bs)

/-- Models `Vec::binary_search` on the sorted, duplicate-free registry:
both `Ok(i)` and `Err(i)` are the index of the first element not below
the key. -/
def lowerBound (ops : List Str) (key : Str) : Nat :=
  (ops.takeWhile (fun o => lexLt o key)).length

/-- The scan over `operators[index..]` (lines 315-325), with its early
exit on a candidate shorter than the current best match, interning each
improvement. -/
def opScan (rest : Str) : List Str → Table → Nat → Symbol → Nat × Symbol × Table
  | [], tbl, maxLen, best => (maxLen, best, tbl)
  | op :: rem, tbl, maxLen, best =>
    if op.length < maxLen then (maxLen, best, tbl)
    else if op.isPrefixOf rest then
      if op.length > maxLen then
        let (sym, tbl1) := tbl.intern op
        opScan rest rem tbl1 op.length sym
      else opScan rest rem tbl maxLen best
    else opScan rest rem tbl maxLen best

/-- The consumption loop (lines 326-332): tick until the index reaches
`first_index + max_op_len`, then push that pair back.  When the stream is
exhausted short of the target the Rust loop never terminates; that branch
is marked as divergence (and proved unreachable). -/
def opConsume (len target : Nat) : List (Nat × Char) → Except String (List (Nat × Char))
  | [] => if len == target then Except.ok [(len, '\x00')] else Except.error panicDivergeMsg
  | (i, c) :: s => if i == target then Except.ok ((i, c) :: s) else opConsume len target s

/-- The operator block (lines 303-340), including the trailing
end-of-stream `assert!` and the terminal `None`. -/
def lexOperator (src : Str) (len : Nat) (tbl : Table) (ops : List Str)
    (first_index : Nat) (first_char : Char) (s0 : List (Nat × Char)) :
    Except String (Option Token × List (Nat × Char) × Table) :=
  let ((end_index, ec), s1) := tick len s0
  let sC := (first_index, first_char) :: (end_index, ec) :: s1
  let start := lowerBound ops (sliceStr src first_index end_index)
  let (sym0, tbl1) := tbl.intern []
  let (maxLen, best, tbl2) := opScan (src.drop first_index) (ops.drop start) tbl1 0 sym0
  match opConsume len (first_index + maxLen) sC with
  | Except.error e => Except.error e
  | Except.ok s2 =>
    if maxLen > 0 then Except.ok (some (Token.Operator best), s2, tbl2)
    else if first_char == '\x00' then Except.ok (none, s2, tbl2)
    else Except.error panicAssertMsg

/-- `Lexer::next` (lines 82-341). -/
def Lexer.next (st : Lexer) : Except String (Option Token × Lexer) :=
  let src := st.source
  let len := src.length
  let ((first_index, first_char), s0) := tick len st.stream
  if is_xid_start first_char then
    let (idx, s1) := scanRun len is_xid_continue s0
    let (sym, tbl1) := st.table.intern (sliceStr src first_index idx)
    Except.ok (some (Token.Identifier sym), { st with stream := s1, table := tbl1 })
  else if is_whitespace first_char then
    let (idx, s1) := scanRun len is_whitespace s0
    let (sym, tbl1) := st.table.intern (sliceStr src first_index idx)
    Except.ok (some (Token.Whitespace sym), { st with stream := s1, table := tbl1 })
  else
    match to_digit first_char 10 with
    | some digit =>
      match lexNumber src len first_index digit s0 with
      | Except.error e => Except.error e
      | Except.ok (tok, s1) => Except.ok (some tok, { st with stream := s1 })
    | none =>
      if first_char == '"' then
        match lexString src len first_index s0 with
        | Except.error e => Except.error e
        | Except.ok (tok, s1) => Except.ok (some tok, { st with stream := s1 })
      else
        let runOp := fun (sOp : List (Nat × Char)) =>
          match lexOperator src len st.table st.operators first_index first_char sOp with
          | Except.error e => Except.error e
          | Except.ok (res, s2, tbl2) =>
            Except.ok (res, { st with stream := s2, table := tbl2 })
        if first_char == '/' then
          let ((si2, c2), s1) := tick len s0
          if c2 == '*' then
            let (tok, s2) := commentLoop src first_index si2 1 s1
            Except.ok (some tok, { st with stream := s2 })
          else runOp ((si2, c2) :: s1)
        else runOp s0

/-- A lexer whose cursor sits at character position `p` of `src`. -/
def lexerAt (src : Str) (p : Nat) (tbl : Table) (ops : List Str) : Lexer :=
  ⟨src, List.enumFrom p (src.drop p), tbl, ops⟩

/-- `Lexer::new`. -/
def Lexer.mk0 (src : Str) (tbl : Table) (ops : List Str) : Lexer :=
  lexerAt src 0 tbl ops

/-- `Lexer::add_operator`: sorted insertion, no-op when present. -/
def addOperator (ops : List Str) (op : Str) : List Str :=
  match ops with
  | [] => [op]
  | o :: rest => if o == op then ops
    else if lexLt o op then o :: addOperator rest op
    else op :: ops

/-- Pull tokens until `None`, recording for each the cursor position
before and after the call (the source span the call consumed).  Fuel
bounds the number of calls; exhaustion is reported as an error. -/
def lexAll (fuel : Nat) (st : Lexer) : Except String (List (Token × Nat × Nat)) :=
  match fuel with
  | 0 => Except.error "fuel"
  | fuel + 1 =>
    let p := streamPos st.source.length st.stream
    match Lexer.next st with
    | Except.error e => Except.error e
    | Except.ok (none, _) => Except.ok []
    | Except.ok (some t, st1) =>
      match lexAll fuel st1 with
      | Except.error e => Except.error e
      | Except.ok l => Except.ok ((t, p, streamPos st1.source.length st1.stream) :: l)

/-- Concatenation of the source spans of a token list. -/
def spansConcat (src : Str) (l : List (Token × Nat × Nat)) : Str :=
  (l.map (fun t => sliceStr src t.2.1 t.2.2)).foldr (· ++ ·) []

/-! ## Table well-formedness

Every entry of a reachable `Table` stores a `Symbol` whose text is the key
it is stored under and whose `tableId` is the table's own identity; both
hold for `Table::new` and are preserved by `intern`. -/

def TableWF (tbl : Table) : Prop :=
  ∀ p ∈ tbl.entries, p.2.text = p.1 ∧ p.2.tableId = tbl.tid

instance (tbl : Table) : Decidable (TableWF tbl) := by
  unfold TableWF; exact List.decidableBAll _ _

theorem lookup_mem {α β : Type} [BEq α] [LawfulBEq α] {l : List (α × β)} {k : α} {v : β}
    (h : l.lookup k = some v) : (k, v) ∈ l := by
  induction l with
  | nil => simp [List.lookup] at h
  | cons p rest ih =>
    obtain ⟨a, b⟩ := p
    simp only [List.lookup] at h
    by_cases hk : (k == a) = true
    · simp only [hk, if_pos] at h
      obtain rfl := Option.some.inj h
      have : k = a := eq_of_beq hk
      subst this
      exact List.mem_cons_self _ _
    · simp only [hk, if_neg, Bool.false_eq_true, not_false_iff] at h
      exact List.mem_cons_of_mem _ (ih h)

theorem intern_sym {tbl : Table} (h : TableWF tbl) (s : Str) :
    (tbl.intern s).1.text = s ∧ (tbl.intern s).1.tableId = tbl.tid := by
  unfold Table.intern
  cases hl : tbl.entries.lookup s with
  | none => simp
  | some sym =>
    have hmem := lookup_mem hl
    simpa using h _ hmem

theorem intern_preserves_wf {tbl : Table} (h : TableWF tbl) (s : Str) :
    TableWF (tbl.intern s).2 := by
  unfold Table.intern
  cases hl : tbl.entries.lookup s with
  | none =>
    intro p hp
    simp only [List.mem_cons] at hp
    rcases hp with rfl | hp
    · simp
    · exact h _ hp
  | some sym => exact h

/-! ## Claim C9: interning identity -/

/-- C9: for every text `t` and table `T`, the two symbols returned by
calling `T.intern(t)` twice in a row are identity-equal (they reference
the same stored text allocation), and for two distinct tables `T1` and
`T2`, `T1.intern(t)` and `T2.intern(t)` are not equal under `Symbol`
equality. -/
theorem C9_interning_identity (t : Str) (T T1 T2 : Table)
    (h1 : TableWF T1) (h2 : TableWF T2) (hT : T1.tid ≠ T2.tid) :
    ((((T.intern t).2).intern t).1.ptrEq (T.intern t).1 = true) ∧
    ((T1.intern t).1.ptrEq (T2.intern t).1 = false) := by
  constructor
  · show ((T.intern t).2.intern t).1.ptrEq (T.intern t).1 = true
    unfold Table.intern
    cases hl : T.entries.lookup t with
    | some sym => simp [hl, Symbol.ptrEq]
    | none => simp [hl, Symbol.ptrEq, List.lookup]
  · have e1 := (intern_sym h1 t).2
    have e2 := (intern_sym h2 t).2
    simp only [Symbol.ptrEq, e1, e2, Bool.and_eq_false_iff]
    left
    simpa using hT

/-- Witness for C9 at concrete tables. -/
theorem C9_witness :
    ((((Table.new 0).intern ['a']).2.intern ['a']).1.ptrEq
        ((Table.new 0).intern ['a']).1 = true) ∧
    (((Table.new 1).intern ['a']).1.ptrEq ((Table.new 2).intern ['a']).1 = false) :=
  C9_interning_identity ['a'] (Table.new 0) (Table.new 1) (Table.new 2)
    (by decide) (by decide) (by decide)

/-! ## Claim C6: the `\xHH` range check is dead code -/

/-- C6 (code bug evaluation): the `\x80` escape, which the claim and the
error message say must be rejected, is accepted: the scanner checks
`char::from_u32` on a byte value, which never fails below 256, so
lexing the string literal containing `\x80` yields
`String` containing U+0080 instead of an `Error` token. -/
theorem C6_x80_accepted :
    (Lexer.next (Lexer.mk0 "\"\\x80\"".data (Table.new 0) [])).map (·.1)
      = Except.ok (some (Token.String ['\x80'])) := by
  simp [Lexer.next, Lexer.mk0, lexerAt, tick, lexString, strLoop, sliceStr, is_xid_start,
    is_whitespace, to_digit, charFromU32, Nat.isValidChar, Except.map]

/-! ## Claim C1: counterexample (the end-of-stream assertion can panic) -/

/-- C1 counterexample: on the input consisting of the single character
`#`, with no operators registered, `Lexer::next` reaches
`assert!(first_char == '\0')` with `first_char = '#'` and panics, so the
claim that no input can cause a fatal failure is false. -/
theorem C1_counterexample :
    Lexer.next (Lexer.mk0 ['#'] (Table.new 0) []) = Except.error panicAssertMsg := by
  rfl

/-! ## Claim C2: counterexample (an embedded NUL truncates the stream) -/

/-- C2 counterexample: on the input `a<NUL>b` the token stream ends after
the identifier `a` (the NUL is taken for end of input), so the
concatenated spans are `a`, not the whole input. -/
theorem C2_counterexample :
    ((lexAll 5 (Lexer.mk0 ['a', '\x00', 'b'] (Table.new 0) [])).map
        (spansConcat ['a', '\x00', 'b']) = Except.ok ['a']) ∧
    (['a'] : Str) ≠ ['a', '\x00', 'b'] :=
  ⟨by rfl, by decide⟩

/-! ## Claim C4: counterexample (star pairs hide a closing delimiter) -/

/-- C4 counterexample: the input `/***/` contains a closing `*/`, but the
comment scanner consumes the two inner stars as one pair and never sees
it, yielding `BrokenComment "**/"` where the claim demands a `Comment`
token. -/
theorem C4_counterexample :
    (Lexer.next (Lexer.mk0 "/***/".data (Table.new 0) [])).map (·.1)
      = Except.ok (some (Token.BrokenComment "**/".data)) := by
  rfl

/-! ## Claim C5: counterexample (`BrokenString` carries raw text) -/

/-- C5 counterexample: lexing `"\n` (opening quote, backslash, `n`, end
of input) returns `BrokenString` carrying the raw characters backslash
and `n`, not the decoded newline the claim demands. -/
theorem C5_counterexample :
    ((Lexer.next (Lexer.mk0 "\"\\n".data (Table.new 0) [])).map (·.1)
      = Except.ok (some (Token.BrokenString ['\\', 'n']))) ∧
    (['\\', 'n'] : Str) ≠ ['\n'] :=
  ⟨by simp [Lexer.next, Lexer.mk0, lexerAt, tick, lexString, strLoop, sliceStr, is_xid_start,
      is_whitespace, to_digit, Except.map], by decide⟩

/-! ## Claim C10: counterexample (the NUL is pushed back, not consumed) -/

/-- C10 counterexample: on input `<NUL>+` with no operators registered,
`next` returns the end-of-stream signal but the cursor still sits at
position 0: the NUL is pushed back rather than consumed, contrary to the
claim's wording. -/
theorem C10_counterexample :
    (Lexer.next (Lexer.mk0 ['\x00', '+'] (Table.new 0) [])).map
        (fun r => (r.1, streamPos 2 r.2.stream))
      = Except.ok (none, 0) := by
  rfl


/-! ## Bridging facts about character classes -/

theorem uint32_le_iff {a b : UInt32} : a ≤ b ↔ a.toNat ≤ b.toNat := by
  rw [UInt32.le_def, BitVec.le_def]; rfl

theorem char_isAlpha_iff {c : Char} :
    c.isAlpha = true ↔ (65 ≤ c.toNat ∧ c.toNat ≤ 90) ∨ (97 ≤ c.toNat ∧ c.toNat ≤ 122) := by
  simp only [Char.isAlpha, Char.isUpper, Char.isLower, Bool.or_eq_true, Bool.and_eq_true,
    decide_eq_true_eq, ge_iff_le, uint32_le_iff]
  exact Iff.rfl

theorem to_digit10_bounds {c : Char} {v : Nat} (h : to_digit c 10 = some v) :
    48 ≤ c.toNat ∧ c.toNat ≤ 57 ∧ v = c.toNat - 48 := by
  unfold to_digit at h
  simp only at h
  split_ifs at h with h1 h2 h3
  · simp only [Bool.and_eq_true, decide_eq_true_eq] at h1
    have h' : (if c.toNat - '0'.toNat < 10 then some (c.toNat - '0'.toNat) else none)
        = some v := h
    have e : '0'.toNat = 48 := rfl
    have e9 : '9'.toNat = 57 := rfl
    rw [e, e9] at h1
    rw [e] at h'
    rw [if_pos (by omega)] at h'
    obtain rfl := Option.some.inj h'
    exact ⟨h1.1, h1.2, rfl⟩
  · simp only [Bool.and_eq_true, decide_eq_true_eq] at h2
    have h' : (if c.toNat - 'a'.toNat + 10 < 10 then some (c.toNat - 'a'.toNat + 10) else none)
        = some v := h
    have e : 'a'.toNat = 97 := rfl
    rw [show 'a'.toNat = 97 from rfl, show 'z'.toNat = 122 from rfl] at h2
    rw [e, if_neg (by omega)] at h'
    exact absurd h' (by simp)
  · simp only [Bool.and_eq_true, decide_eq_true_eq] at h3
    have h' : (if c.toNat - 'A'.toNat + 10 < 10 then some (c.toNat - 'A'.toNat + 10) else none)
        = some v := h
    rw [show 'A'.toNat = 65 from rfl, show 'Z'.toNat = 90 from rfl] at h3
    rw [show 'A'.toNat = 65 from rfl, if_neg (by omega)] at h'
    exact absurd h' (by simp)

theorem char_ne_of_toNat {c d : Char} (h : c.toNat ≠ d.toNat) : (c == d) = false := by
  rw [beq_eq_false_iff_ne]
  intro hc; exact h (by rw [hc])

theorem digit_class {c : Char} {v : Nat} (h : to_digit c 10 = some v) :
    is_xid_start c = false ∧ is_whitespace c = false ∧ (c == '"') = false ∧
      (c == '/') = false ∧ (c == '\x00') = false := by
  obtain ⟨hl, hr, -⟩ := to_digit10_bounds h
  refine ⟨?_, ?_, ?_, ?_, ?_⟩
  · unfold is_xid_start
    rw [Bool.eq_false_iff]
    intro ha
    rcases char_isAlpha_iff.mp ha with hb | hb <;> omega
  · unfold is_whitespace
    simp only [Bool.or_eq_false_iff]
    refine ⟨⟨⟨?_, ?_⟩, ?_⟩, ?_⟩ <;> apply char_ne_of_toNat
    · rw [show (' ').toNat = 32 from rfl]; omega
    · rw [show ('\t').toNat = 9 from rfl]; omega
    · rw [show ('\n').toNat = 10 from rfl]; omega
    · rw [show ('\r').toNat = 13 from rfl]; omega
  · apply char_ne_of_toNat; rw [show ('"').toNat = 34 from rfl]; omega
  · apply char_ne_of_toNat; rw [show ('/').toNat = 47 from rfl]; omega
  · apply char_ne_of_toNat; rw [show ('\x00').toNat = 0 from rfl]; omega

/-! ## Stream decomposition and run lemmas -/

theorem enumFrom_append {α : Type} (q : Nat) (l1 l2 : List α) :
    List.enumFrom q (l1 ++ l2) = List.enumFrom q l1 ++ List.enumFrom (q + l1.length) l2 := by
  induction l1 generalizing q with
  | nil => simp
  | cons a l ih =>
    simp only [List.cons_append, List.enumFrom_cons, ih (q + 1), List.length_cons]
    have : q + 1 + l.length = q + (l.length + 1) := by omega
    rw [this]

theorem scanRun_run (len : Nat) (pred : Char → Bool) (q : Nat) (ds : Str)
    (h : ∀ c ∈ ds, pred c = true) (s0 : List (Nat × Char)) :
    scanRun len pred (List.enumFrom q ds ++ s0) = scanRun len pred s0 := by
  induction ds generalizing q with
  | nil => simp
  | cons c cs ih =>
    simp only [List.enumFrom_cons, List.cons_append, scanRun, h c (by simp)]
    simp only [if_true]
    exact ih (q + 1) (fun x hx => h x (List.mem_cons_of_mem _ hx))

theorem lexDecimalExp_marker (src : Str) (len first last : Nat) (sd : Bool)
    (q : Nat) (m : Char) (S : List (Nat × Char)) (hm : m = 'e' ∨ m = 'E')
    (hS : ∀ jc, S.head? = some jc → to_digit jc.2 10 = none) :
    lexDecimalExp src len first last sd ((q, m) :: S) = Except.error panicI64Msg ∨
    ∃ n S1, lexDecimalExp src len first last sd ((q, m) :: S)
        = Except.ok (Token.Number n, (q, m) :: S1) := by
  have hcond : (m == 'e' || m == 'E') = true := by rcases hm with rfl | rfl <;> rfl
  have hz : to_digit '\x00' 10 = none := rfl
  cases S with
  | nil =>
    cases sd with
    | false =>
      by_cases hle : digitsToNat 10 ((sliceStr src first last).filter (fun c => c != '_')) ≤ i64Max
      · exact Or.inr ⟨Number.I64 (digitsToNat 10 ((sliceStr src first last).filter (fun c => c != '_'))),
          [(len, '\x00')], by simp [lexDecimalExp, tick, hcond, hle, hz]⟩
      · exact Or.inl (by simp [lexDecimalExp, tick, hcond, hle, hz])
    | true =>
      exact Or.inr ⟨Number.F64 (String.mk ((sliceStr src first last).filter (fun c => c != '_'))),
        [(len, '\x00')], by simp [lexDecimalExp, tick, hcond, hz]⟩
  | cons jc S2 =>
    obtain ⟨j, c4⟩ := jc
    have hc4 := hS (j, c4) rfl
    cases sd with
    | false =>
      by_cases hle : digitsToNat 10 ((sliceStr src first last).filter (fun c => c != '_')) ≤ i64Max
      · exact Or.inr ⟨Number.I64 (digitsToNat 10 ((sliceStr src first last).filter (fun c => c != '_'))),
          (j, c4) :: S2, by simp [lexDecimalExp, tick, hcond, hle, hc4]⟩
      · exact Or.inl (by simp [lexDecimalExp, tick, hcond, hle, hc4])
    | true =>
      exact Or.inr ⟨Number.F64 (String.mk ((sliceStr src first last).filter (fun c => c != '_'))),
        (j, c4) :: S2, by simp [lexDecimalExp, tick, hcond, hc4]⟩


/-! ## Claim C7: a radix prefix with no valid digit is never consumed -/

/-- C7: for every input beginning with `0` followed by a radix prefix
letter `x`, `o`, or `b` that is not followed by a valid digit of that
radix, `next` emits `Number(I64(0))` and leaves the cursor exactly at the
prefix letter, so the subsequent token starts there. -/
theorem C7_radix_prefix_not_consumed (tbl : Table) (ops : List Str) (l : Char) (rest : Str)
    (hl : l = 'x' ∨ l = 'o' ∨ l = 'b')
    (hrest : ∀ c, rest.head? = some c →
      to_digit c (if l = 'x' then 16 else if l = 'o' then 8 else 2) = none) :
    match Lexer.next (Lexer.mk0 ('0' :: l :: rest) tbl ops) with
    | Except.ok (some tok, st1) =>
        tok = Token.Number (Number.I64 0) ∧
          streamPos ('0' :: l :: rest).length st1.stream = 1
    | _ => False := by
  rcases hl with rfl | rfl | rfl <;> cases rest with
  | nil => exact ⟨rfl, rfl⟩
  | cons c rs =>
    have hc := hrest c rfl
    simp at hc
    simp [Lexer.next, Lexer.mk0, lexerAt, tick, lexNumber, hc, streamPos,
      show to_digit '0' 10 = some 0 from rfl,
      show to_digit 'x' 10 = none from rfl,
      show to_digit 'o' 10 = none from rfl,
      show to_digit 'b' 10 = none from rfl,
      show is_xid_start '0' = false from rfl,
      show is_whitespace '0' = false from rfl]

/-- Witness for C7: the input `0x` yields `Number(I64(0))` with the
cursor left at position 1, and the full token stream is
`Number(I64(0))`, `Identifier("x")`. -/
theorem C7_witness :
    (match Lexer.next (Lexer.mk0 ('0' :: 'x' :: ([] : Str)) (Table.new 0) []) with
      | Except.ok (some tok, st1) =>
          tok = Token.Number (Number.I64 0) ∧
            streamPos ('0' :: 'x' :: ([] : Str)).length st1.stream = 1
      | _ => False) ∧
    (lexAll 5 (Lexer.mk0 "0x".data (Table.new 0) [])).map (fun l => l.map (fun t => t.1))
      = Except.ok [Token.Number (Number.I64 0), Token.Identifier ⟨['x'], 0, 0⟩] :=
  ⟨C7_radix_prefix_not_consumed (Table.new 0) [] 'x' [] (Or.inl rfl) (by simp),
    by rfl⟩

/-! ## Claim C8: an exponent marker not followed by a digit is never
consumed -/

/-- C8: for every decimal literal (an integer digit/underscore run,
optionally a fraction part) followed by an exponent marker `e` or `E`
that is not immediately followed by a decimal digit, `next` either panics
on an out-of-range integer literal (the unwrap of claim C1) or returns a
`Number` token with the cursor left exactly at the marker, so the
subsequent token starts there. -/
theorem C8_exponent_marker_not_consumed (tbl : Table) (ops : List Str)
    (d : Char) (dv : Nat) (ds fracPre : Str) (m : Char) (rest : Str)
    (hd : to_digit d 10 = some dv)
    (hds : ∀ c ∈ ds, isDigitU c = true)
    (hfrac : fracPre = [] ∨ ∃ fs, fracPre = '.' :: fs ∧ ∀ c ∈ fs, isDigitU c = true)
    (hm : m = 'e' ∨ m = 'E')
    (hrest : ∀ c, rest.head? = some c → to_digit c 10 = none) :
    Lexer.next (Lexer.mk0 (d :: (ds ++ fracPre ++ m :: rest)) tbl ops)
        = Except.error panicI64Msg ∨
    ∃ n st1, Lexer.next (Lexer.mk0 (d :: (ds ++ fracPre ++ m :: rest)) tbl ops)
        = Except.ok (some (Token.Number n), st1) ∧
      streamPos (d :: (ds ++ fracPre ++ m :: rest)).length st1.stream
        = 1 + ds.length + fracPre.length := by
  obtain ⟨hxs, hws, hq, hsl, hnul⟩ := digit_class hd
  have hmne : (m == '.') = false := by rcases hm with rfl | rfl <;> rfl
  have hmd : isDigitU m = false := by rcases hm with rfl | rfl <;> rfl
  have hme : (m == 'e' || m == 'E') = true := by rcases hm with rfl | rfl <;> rfl
  set src : Str := d :: (ds ++ fracPre ++ m :: rest) with hsrc
  set len : Nat := src.length with hlen
  set posm : Nat := 1 + ds.length + fracPre.length with hposm
  set Srest : List (Nat × Char) := List.enumFrom (posm + 1) rest with hSrest
  have hSr : ∀ jc, Srest.head? = some jc → to_digit jc.2 10 = none := by
    intro jc hjc
    cases rest with
    | nil => simp [hSrest] at hjc
    | cons c rs =>
      simp only [hSrest, List.enumFrom_cons, List.head?_cons, Option.some.inj] at hjc
      have := hrest c rfl
      obtain rfl : (posm + 1, c) = jc := Option.some.inj hjc
      simpa using this
  -- the full tail stream past the integer part
  set S0 : List (Nat × Char) :=
    List.enumFrom (1 + ds.length) fracPre ++ (posm, m) :: Srest with hS0
  have hsplit : List.enumFrom 1 (ds ++ fracPre ++ m :: rest)
      = List.enumFrom 1 ds ++ S0 := by
    rw [List.append_assoc, enumFrom_append, hS0]
    congr 1
    rw [enumFrom_append, List.enumFrom_cons]
  -- after the integer run the scanner sits on the fraction part or the marker
  have hscan1 : scanRun len isDigitU (List.enumFrom 1 (ds ++ fracPre ++ m :: rest))
      = scanRun len isDigitU S0 := by
    rw [hsplit]
    exact scanRun_run len isDigitU 1 ds hds S0
  have hentry : ∀ c : Char, isDigitU c = true →
      ((to_digit c 10).isSome || (c == '_') || (c == '.') || (c == 'e') || (c == 'E'))
        = true := by
    intro c hc
    unfold isDigitU at hc
    simp only [Bool.or_eq_true] at hc
    rcases hc with h | h <;> simp [h]
  have hentrym : ((to_digit m 10).isSome || (m == '_') || (m == '.') || (m == 'e')
      || (m == 'E')) = true := by
    rcases hm with rfl | rfl <;> rfl
  -- reduce `Lexer.next` to the `lexNumber` call and conclude from the
  -- characterization of the exponent tail
  have finishOff : ∀ sd : Bool,
      lexNumber src len 0 dv (List.enumFrom 1 (ds ++ fracPre ++ m :: rest))
        = lexDecimalExp src len 0 posm sd ((posm, m) :: Srest) →
      Lexer.next (Lexer.mk0 src tbl ops) = Except.error panicI64Msg ∨
      ∃ n st1, Lexer.next (Lexer.mk0 src tbl ops)
          = Except.ok (some (Token.Number n), st1) ∧
        streamPos src.length st1.stream = 1 + ds.length + fracPre.length := by
    intro sd hlexnum
    have hfirst : List.enumFrom 0 (src.drop 0) = (0, d)
        :: List.enumFrom 1 (ds ++ fracPre ++ m :: rest) := by
      rw [hsrc]
      rfl
    have hnext0 : Lexer.next (Lexer.mk0 src tbl ops)
        = match lexDecimalExp src len 0 posm sd ((posm, m) :: Srest) with
          | Except.error e => Except.error e
          | Except.ok (tok, s1) =>
            Except.ok (some tok, ⟨src, s1, tbl, ops⟩) := by
      simp only [Lexer.next, Lexer.mk0, lexerAt, hfirst, tick, hxs, hws, hd,
        Bool.false_eq_true, if_false]
      rw [← hlen, hlexnum]
    rcases lexDecimalExp_marker src len 0 posm sd posm m Srest hm hSr with herr | ⟨n, S1, hok⟩
    · left
      rw [hnext0, herr]
    · right
      refine ⟨n, ⟨src, (posm, m) :: S1, tbl, ops⟩, ?_, ?_⟩
      · rw [hnext0, hok]
      · simp [streamPos, hposm]
  have hentrym3 : ((to_digit m 10).isSome || (m == '_') || false || (m == 'e')
      || (m == 'E')) = true := by
    rcases hm with rfl | rfl <;> rfl
  rcases hfrac with rfl | ⟨fs, rfl, hfs⟩
  · -- no fraction part
    have hS0nil : S0 = (posm, m) :: Srest := by
      simp [hS0]
    cases ds with
    | nil =>
      refine finishOff false ?_
      have hT : List.enumFrom 1 (([] : Str) ++ [] ++ m :: rest) = (posm, m) :: Srest := by
        simp [hSrest, hposm, List.enumFrom_cons]
      rw [hT]
      simp only [lexNumber, tick, hmne, scanRun, hmd, Bool.false_eq_true, if_false,
        hentrym3, if_true]
    | cons c cs =>
      refine finishOff false ?_
      have hcs : List.enumFrom 2 (cs ++ ([] : Str) ++ m :: rest)
          = List.enumFrom 2 cs ++ S0 := by
        rw [List.append_assoc, enumFrom_append, hS0, enumFrom_append, List.enumFrom_cons]
        rw [show 2 + cs.length = 1 + List.length (c :: cs) from by
          simp only [List.length_cons]; omega]
      have hruncs : scanRun len isDigitU (List.enumFrom 2 (cs ++ ([] : Str) ++ m :: rest))
          = (posm, (posm, m) :: Srest) := by
        rw [hcs, scanRun_run len isDigitU 2 cs
          (fun x hx => hds x (List.mem_cons_of_mem _ hx)) S0, hS0nil]
        simp [scanRun, hmd]
      simp only [List.cons_append, List.enumFrom_cons, lexNumber, tick]
      rw [if_pos (hentry c (hds c (List.mem_cons_self _ _)))]
      simp only [scanRun, hds c (List.mem_cons_self _ _), if_true]
      simp only [show (1 + 1 : Nat) = 2 from rfl]
      rw [hruncs]
      simp only [tick, hmne, Bool.false_eq_true, if_false]
  · -- fraction part `.fs`
    have hS0frac : S0 = (1 + ds.length, '.')
        :: (List.enumFrom (1 + ds.length + 1) fs ++ (posm, m) :: Srest) := by
      simp [hS0]
    have hrunfs : scanRun len isDigitU
        (List.enumFrom (1 + ds.length + 1) fs ++ (posm, m) :: Srest)
          = (posm, (posm, m) :: Srest) := by
      rw [scanRun_run len isDigitU (1 + ds.length + 1) fs hfs]
      simp [scanRun, hmd]
    cases ds with
    | nil =>
      refine finishOff true ?_
      have hT : List.enumFrom 1 (([] : Str) ++ '.' :: fs ++ m :: rest)
          = (1, '.') :: (List.enumFrom 2 fs ++ (posm, m) :: Srest) := by
        rw [List.nil_append, List.cons_append, List.enumFrom_cons, enumFrom_append,
          List.enumFrom_cons]
        rw [show 2 + fs.length = posm from by
          rw [hposm]; simp only [List.length_nil, List.length_cons]; omega]
      have hrunfs2 : scanRun len isDigitU (List.enumFrom 2 fs ++ (posm, m) :: Srest)
          = (posm, (posm, m) :: Srest) := by
        have h := hrunfs
        rw [show 1 + List.length ([] : Str) + 1 = 2 from rfl] at h
        exact h
      rw [hT]
      simp only [lexNumber, tick, Bool.true_or, Bool.or_true, if_true,
        scanRun, show isDigitU '.' = false from rfl, Bool.false_eq_true, if_false,
        show ('.' == '.') = true from rfl]
      rw [hrunfs2]
    | cons c cs =>
      refine finishOff true ?_
      have hcs : List.enumFrom 2 (cs ++ '.' :: fs ++ m :: rest)
          = List.enumFrom 2 cs ++ S0 := by
        rw [List.append_assoc, enumFrom_append, hS0, List.cons_append,
          List.enumFrom_cons, enumFrom_append, List.enumFrom_cons]
        rw [show 2 + cs.length = 1 + List.length (c :: cs) from by
          simp only [List.length_cons]; omega]
        rw [show 1 + List.length (c :: cs) + 1 + fs.length = posm from by
          rw [hposm]; simp only [List.length_cons]; omega]
        rfl
      have hruncs : scanRun len isDigitU (List.enumFrom 2 (cs ++ '.' :: fs ++ m :: rest))
          = (1 + List.length (c :: cs), S0) := by
        rw [hcs, scanRun_run len isDigitU 2 cs
          (fun x hx => hds x (List.mem_cons_of_mem _ hx)) S0]
        rw [hS0frac]
        simp only [scanRun, show isDigitU '.' = false from rfl, Bool.false_eq_true,
          if_false, streamPos]
      simp only [List.cons_append, List.enumFrom_cons, lexNumber, tick]
      rw [if_pos (hentry c (hds c (List.mem_cons_self _ _)))]
      simp only [scanRun, hds c (List.mem_cons_self _ _), if_true]
      simp only [show (1 + 1 : Nat) = 2 from rfl]
      rw [hruncs]
      simp only [hS0frac, show ('.' == '.') = true from rfl, if_true]
      rw [hrunfs]

/-- Witness for C8: the input `1e` yields `Number(I64(1))` with the
cursor left at the marker, and the full token stream is `Number(I64(1))`,
`Identifier("e")`. -/
theorem C8_witness :
    (Lexer.next (Lexer.mk0 ('1' :: (([] : Str) ++ ([] : Str) ++ 'e' :: ([] : Str)))
          (Table.new 0) []) = Except.error panicI64Msg ∨
      ∃ n st1, Lexer.next (Lexer.mk0 ('1' :: (([] : Str) ++ ([] : Str) ++ 'e' :: ([] : Str)))
            (Table.new 0) [])
          = Except.ok (some (Token.Number n), st1) ∧
        streamPos ('1' :: (([] : Str) ++ ([] : Str) ++ 'e' :: ([] : Str))).length st1.stream
          = 1 + ([] : Str).length + ([] : Str).length) ∧
    (lexAll 5 (Lexer.mk0 "1e".data (Table.new 0) [])).map (fun l => l.map (fun t => t.1))
      = Except.ok [Token.Number (Number.I64 1), Token.Identifier ⟨['e'], 0, 0⟩] :=
  ⟨C8_exponent_marker_not_consumed (Table.new 0) [] '1' 1 [] [] 'e' []
      rfl (by simp) (Or.inl rfl) (Or.inl rfl) (by simp),
    by rfl⟩


/-! ## Claim C4: the block-comment scan, as the code performs it -/

/-- The comment scan as the code actually performs it, re-expressed over
the raw text after the opening delimiter (following the amended claim C4):
the scanner reads in steps; a `/` consumes the following character too and
increments the depth only if that character is `*`; a `*` consumes the
following character too and decrements only if it is `/`; any other
character is consumed alone; reaching depth 0 closes the comment; a NUL or
the end of the text breaks it.  Returns the number of characters consumed
up to and including the closing delimiter, or `none` if the comment never
closes. -/
def pairedScan : Str → Nat → Option Nat
  | [], _ => none
  | c :: s, depth =>
    if c == '/' then
      match s with
      | [] => none
      | c2 :: s2 => (pairedScan s2 (if c2 == '*' then depth + 1 else depth)).map (· + 2)
    else if c == '*' then
      match s with
      | [] => none
      | c2 :: s2 =>
        if c2 == '/' then
          if depth == 1 then some 2 else (pairedScan s2 (depth - 1)).map (· + 2)
        else (pairedScan s2 depth).map (· + 2)
    else if c == '\x00' then none
    else (pairedScan s depth).map (· + 1)

theorem commentLoop_pairedScan (src : Str) (fi : Nat) :
    ∀ (N : Nat) (sub : Str) (q depth last : Nat), sub.length ≤ N →
    (commentLoop src fi last depth (List.enumFrom q sub)).1
      = match pairedScan sub depth with
        | some n => Token.Comment (sliceStr src (fi + 2) (q + n - 2))
        | none => Token.BrokenComment (src.drop (fi + 2)) := by
  intro N
  induction N with
  | zero =>
    intro sub q depth last hlen
    cases sub with
    | nil => rfl
    | cons c s => simp at hlen
  | succ N ih =>
    intro sub q depth last hlen
    cases sub with
    | nil => rfl
    | cons c s =>
      rw [List.enumFrom_cons]
      rw [commentLoop.eq_def]
      conv_rhs => rw [pairedScan.eq_def]
      simp only []
      cases hc1 : c == '/' with
      | true =>
        simp only [hc1, if_true]
        cases s with
        | nil => rfl
        | cons c2 s2 =>
          rw [List.enumFrom_cons]
          simp only []
          rw [ih s2 (q + 2) (if c2 == '*' then depth + 1 else depth) last
            (by simp at hlen ⊢; omega)]
          cases pairedScan s2 (if c2 == '*' then depth + 1 else depth) with
          | none => simp
          | some n =>
            simp only [Option.map_some']
            have har : q + 2 + n - 2 = q + (n + 2) - 2 := by omega
            rw [har]
      | false =>
        simp only [hc1, Bool.false_eq_true, if_false]
        cases hc2 : c == '*' with
        | true =>
          simp only [hc2, if_true]
          cases s with
          | nil => rfl
          | cons c2 s2 =>
            rw [List.enumFrom_cons]
            simp only []
            cases hc3 : c2 == '/' with
            | true =>
              simp only [hc3, if_true]
              cases hd : depth == 1 with
              | true =>
                simp only [hd, if_true]
                have har : q + 1 - 1 = q + 2 - 2 := by omega
                rw [har]
              | false =>
                simp only [hd, Bool.false_eq_true, if_false]
                rw [ih s2 (q + 2) (depth - 1) (q + 1 - 1) (by simp at hlen ⊢; omega)]
                cases pairedScan s2 (depth - 1) with
                | none => simp
                | some n =>
                  simp only [Option.map_some']
                  have har : q + 2 + n - 2 = q + (n + 2) - 2 := by omega
                  rw [har]
            | false =>
              simp only [hc3, Bool.false_eq_true, if_false]
              rw [ih s2 (q + 2) depth last (by simp at hlen ⊢; omega)]
              cases pairedScan s2 depth with
              | none => simp
              | some n =>
                simp only [Option.map_some']
                have har : q + 2 + n - 2 = q + (n + 2) - 2 := by omega
                rw [har]
        | false =>
          simp only [hc2, Bool.false_eq_true, if_false]
          cases hc0 : c == '\x00' with
          | true => simp only [hc0, if_true]
          | false =>
            simp only [hc0, Bool.false_eq_true, if_false]
            rw [ih s (q + 1) depth last (by simp at hlen ⊢; omega)]
            cases pairedScan s depth with
            | none => simp
            | some n =>
              simp only [Option.map_some']
              have har : q + 1 + n - 2 = q + (n + 1) - 2 := by omega
              rw [har]

/-- C4 (amended): for every input whose first two characters are `/*`,
the token `next` returns is exactly described by the paired scan: if the
paired scan closes after consuming `n` characters, the token is `Comment`
carrying the text strictly between the delimiters; otherwise (end of
input, a NUL, or a closing `*/` hidden inside a consumed pair, as in
`/***/`) the token is `BrokenComment` carrying the entire remainder after
the opening delimiter. -/
theorem C4_comment_paired_scan (tbl : Table) (ops : List Str) (rest : Str) :
    (Lexer.next (Lexer.mk0 ('/' :: '*' :: rest) tbl ops)).map (fun r => r.1)
      = Except.ok (some (match pairedScan rest 1 with
          | some n => Token.Comment (rest.take (n - 2))
          | none => Token.BrokenComment rest)) := by
  have hcl := commentLoop_pairedScan ('/' :: '*' :: rest) 0 rest.length rest 2 1 1 le_rfl
  simp only [Lexer.next, Lexer.mk0, lexerAt, List.drop_zero, List.enumFrom_cons, tick,
    Except.map,
    show is_xid_start '/' = false from rfl, show is_whitespace '/' = false from rfl,
    show to_digit '/' 10 = none from rfl, show (('/' : Char) == '"') = false from rfl,
    show (('/' : Char) == '/') = true from rfl, show (('*' : Char) == '*') = true from rfl,
    Bool.false_eq_true, if_false, if_true]
  rw [show (0 + 1 + 1 : Nat) = 2 from rfl] at *
  rw [hcl]
  cases hps : pairedScan rest 1 with
  | none => simp
  | some n =>
    simp only []
    have h1 : sliceStr ('/' :: '*' :: rest) (0 + 2) (2 + n - 2) = rest.take (n - 2) := by
      unfold sliceStr
      rw [show (0 + 2 : Nat) = 2 from rfl, show List.drop 2 ('/' :: '*' :: rest) = rest from rfl,
        show 2 + n - 2 - 2 = n - 2 from by omega]
    rw [h1]

/-! ## Claim C5: `BrokenString` carries the raw, undecoded text -/

theorem uEscLoop_suffix : ∀ (sub : Str) (q i : Nat),
    ∃ k, (uEscLoop i (List.enumFrom q sub)).2 = List.enumFrom (q + k) (sub.drop k) := by
  intro sub
  induction sub with
  | nil =>
    intro q i
    refine ⟨0, ?_⟩
    simp only [List.enumFrom_nil, List.drop_nil, uEscLoop]
    split <;> rfl
  | cons c s ih =>
    intro q i
    rw [List.enumFrom_cons, uEscLoop.eq_def]
    simp only []
    by_cases hc : (c == '}') = true
    · exact ⟨1, by simp [hc]⟩
    · simp only [hc, Bool.false_eq_true, if_false]
      by_cases hi : (i == 6) = true
      · exact ⟨1, by simp [hi]⟩
      · simp only [hi, Bool.false_eq_true, if_false]
        by_cases hd : (to_digit c 16).isSome = true
        · simp only [hd, if_true]
          obtain ⟨k, hk⟩ := ih (q + 1) (i + 1)
          refine ⟨k + 1, ?_⟩
          rw [hk]
          simp only [List.drop_succ_cons]
          congr 1
          omega
        · simp only [hd, Bool.false_eq_true, if_false]
          exact ⟨1, by simp⟩

theorem strLoop_broken (src : Str) (si : Nat) :
    ∀ (N : Nat) (sub : Str) (q : Nat) (out p : Str) (s1 : List (Nat × Char)),
    sub.length ≤ N → (∀ c ∈ sub, c ≠ '\x00') →
    strLoop src si out (List.enumFrom q sub) = Except.ok (Token.BrokenString p, s1) →
    p = sliceStr src si src.length := by
  intro N
  induction N with
  | zero =>
    intro sub q out p s1 hlen hnul h
    cases sub with
    | nil =>
      rw [List.enumFrom_nil, strLoop.eq_def] at h
      simp only [Except.ok.injEq, Prod.mk.injEq, Token.BrokenString.injEq] at h
      exact h.1.symm
    | cons c s => simp at hlen
  | succ N ih =>
    intro sub q out p s1 hlen hnul h
    cases sub with
    | nil =>
      rw [List.enumFrom_nil, strLoop.eq_def] at h
      simp only [Except.ok.injEq, Prod.mk.injEq, Token.BrokenString.injEq] at h
      exact h.1.symm
    | cons c s =>
      rw [List.enumFrom_cons, strLoop.eq_def] at h
      have hc0 : (c == '\x00') = false := by simpa using hnul c (by simp)
      simp only [hc0, Bool.false_eq_true, if_false] at h
      by_cases hbs : (c == '\\') = true
      · simp only [hbs, if_true] at h
        cases s with
        | nil =>
          rw [List.enumFrom_nil] at h
          simp only [Except.ok.injEq, Prod.mk.injEq, Token.BrokenString.injEq] at h
          exact h.1.symm
        | cons e s2 =>
          rw [List.enumFrom_cons] at h
          have he0 : (e == '\x00') = false := by simpa using hnul e (by simp)
          simp only [he0, Bool.false_eq_true, if_false] at h
          have descend2 : ∀ x ∈ s2, x ≠ '\x00' := fun x hx => hnul x (by simp [hx])
          have hlen2 : s2.length ≤ N := by simp at hlen; omega
          by_cases hn : (e == 'n') = true
          · simp only [hn, if_true] at h
            exact ih s2 (q + 2) _ p s1 hlen2 descend2 h
          · simp only [hn, Bool.false_eq_true, if_false] at h
            by_cases ht : (e == 't') = true
            · simp only [ht, if_true] at h
              exact ih s2 (q + 2) _ p s1 hlen2 descend2 h
            · simp only [ht, Bool.false_eq_true, if_false] at h
              by_cases hb2 : (e == '\\') = true
              · simp only [hb2, if_true] at h
                exact ih s2 (q + 2) _ p s1 hlen2 descend2 h
              · simp only [hb2, Bool.false_eq_true, if_false] at h
                by_cases hq2 : (e == '"') = true
                · simp only [hq2, if_true] at h
                  exact ih s2 (q + 2) _ p s1 hlen2 descend2 h
                · simp only [hq2, Bool.false_eq_true, if_false] at h
                  by_cases hx : (e == 'x') = true
                  · simp only [hx, if_true] at h
                    cases s2 with
                    | nil => rw [List.enumFrom_nil] at h; simp at h
                    | cons a1 s3 =>
                      rw [List.enumFrom_cons] at h
                      cases s3 with
                      | nil => rw [List.enumFrom_nil] at h; simp at h
                      | cons a2 s4 =>
                        rw [List.enumFrom_cons] at h
                        simp only [] at h
                        cases hd1 : to_digit a1 16 with
                        | none =>
                          cases hd2 : to_digit a2 16 with
                          | none => rw [hd1, hd2] at h; simp at h
                          | some b => rw [hd1, hd2] at h; simp at h
                        | some a =>
                          cases hd2 : to_digit a2 16 with
                          | none => rw [hd1, hd2] at h; simp at h
                          | some b =>
                            rw [hd1, hd2] at h
                            simp only [] at h
                            cases hcf : charFromU32 (a * 16 + b) with
                            | none => rw [hcf] at h; simp at h
                            | some ch =>
                              rw [hcf] at h
                              simp only [] at h
                              refine ih s4 (q + 4) _ p s1 ?_ ?_ h
                              · simp at hlen ⊢; omega
                              · intro x hx2; exact hnul x (by simp [hx2])
                  · simp only [hx, Bool.false_eq_true, if_false] at h
                    by_cases hu : (e == 'u') = true
                    · simp only [hu, if_true] at h
                      cases s2 with
                      | nil => rw [List.enumFrom_nil] at h; simp at h
                      | cons c3 s3 =>
                        rw [List.enumFrom_cons] at h
                        simp only [] at h
                        by_cases hob : (c3 == '{') = true
                        · simp only [hob, if_true] at h
                          cases huE : uEscLoop 0 (List.enumFrom (q + 3) s3) with
                          | mk uscan s4 =>
                            rw [huE] at h
                            cases uscan with
                            | err msg => simp at h
                            | close endIdx =>
                              simp only [] at h
                              by_cases hhex : (sliceStr src (q + 2 + 1) endIdx).isEmpty = true
                              · rw [if_pos hhex] at h; simp at h
                              · rw [if_neg (by simpa using hhex)] at h
                                cases hcf : charFromU32
                                    (digitsToNat 16 (sliceStr src (q + 2 + 1) endIdx)) with
                                | none => rw [hcf] at h; simp at h
                                | some ch =>
                                  rw [hcf] at h
                                  simp only [] at h
                                  obtain ⟨k, hk⟩ := uEscLoop_suffix s3 (q + 3) 0
                                  rw [huE] at hk
                                  simp only [] at hk
                                  rw [hk] at h
                                  refine ih (s3.drop k) (q + 3 + k) _ p s1 ?_ ?_ h
                                  · have := List.length_drop k s3
                                    simp at hlen ⊢
                                    omega
                                  · intro x hx2
                                    exact hnul x (by
                                      simp only [List.mem_cons]
                                      right; right; right
                                      exact List.mem_of_mem_drop hx2)
                        · simp only [hob, Bool.false_eq_true, if_false] at h
                          simp at h
                    · simp only [hu, Bool.false_eq_true, if_false] at h
                      exact ih s2 (q + 2) _ p s1 hlen2 descend2 h
      · simp only [hbs, Bool.false_eq_true, if_false] at h
        by_cases hq2 : (c == '"') = true
        · simp only [hq2, if_true] at h
          simp at h
        · simp only [hq2, Bool.false_eq_true, if_false] at h
          refine ih s (q + 1) _ p s1 (by simp at hlen ⊢; omega)
            (fun x hx => hnul x (by simp [hx])) h

/-- C5 (amended): for every string literal in which end of input is
reached before the closing quote, whenever `next` returns `BrokenString`
its payload is the raw source text after the opening quote, with escape
sequences NOT decoded (a consumed `\n` escape appears as backslash
followed by `n`).  (`BrokenString` is returned when end of input hits the
literal body or immediately after the escape backslash; end of input
deeper inside an `\x` or `\u` escape yields an `Error` token instead.) -/
theorem C5_broken_string_raw (tbl : Table) (ops : List Str) (rest : Str)
    (hnul : ∀ c ∈ rest, c ≠ '\x00') :
    match Lexer.next (Lexer.mk0 ('"' :: rest) tbl ops) with
    | Except.ok (some (Token.BrokenString p), _) => p = rest
    | _ => True := by
  have hnext : Lexer.next (Lexer.mk0 ('"' :: rest) tbl ops)
      = match lexString ('"' :: rest) ('"' :: rest).length 0 (List.enumFrom 1 rest) with
        | Except.error e => Except.error e
        | Except.ok (tok, s1) =>
          Except.ok (some tok, ⟨'"' :: rest, s1, tbl, ops⟩) := by
    simp only [Lexer.next, Lexer.mk0, lexerAt, List.drop_zero, List.enumFrom_cons, tick,
      show is_xid_start '"' = false from rfl, show is_whitespace '"' = false from rfl,
      show to_digit '"' 10 = none from rfl, show (('"' : Char) == '"') = true from rfl,
      Bool.false_eq_true, if_false, if_true]
  rw [hnext]
  cases rest with
  | nil =>
    simp [lexString]
  | cons c rs =>
    have h1len : 0 + 1 < ('"' :: c :: rs).length := by simp
    rw [lexString, if_pos h1len]
    cases hs : strLoop ('"' :: c :: rs) (0 + 1) [] (List.enumFrom 1 (c :: rs)) with
    | error e => simp
    | ok pr =>
      obtain ⟨tok, s1⟩ := pr
      cases tok with
      | BrokenString p =>
        simp only []
        have := strLoop_broken ('"' :: c :: rs) (0 + 1) (c :: rs).length (c :: rs) 1 [] p s1
          le_rfl hnul hs
        rw [this]
        simp [sliceStr]
      | Identifier a => simp
      | Number a => simp
      | String a => simp
      | Error a => simp
      | Comment a => simp
      | BrokenComment a => simp
      | Whitespace a => simp
      | Operator a => simp

/-- Witness for C5: lexing the source consisting of quote, backslash, `n`
gives `BrokenString` whose payload is the raw backslash-`n` text. -/
theorem C5_witness :
    match Lexer.next (Lexer.mk0 ('"' :: ['\\', 'n']) (Table.new 0) []) with
    | Except.ok (some (Token.BrokenString p), _) => p = ['\\', 'n']
    | _ => True :=
  C5_broken_string_raw (Table.new 0) [] ['\\', 'n'] (by decide)


/-! ## Claim C10: an embedded NUL acts as end of input -/

theorem opScan_no_match (rest : Str) :
    ∀ (l : List Str) (tbl : Table) (best : Symbol),
    (∀ op ∈ l, op.isPrefixOf rest = true → op = []) →
    opScan rest l tbl 0 best = (0, best, tbl) := by
  intro l
  induction l with
  | nil => intro tbl best hl; rfl
  | cons op rem ih =>
    intro tbl best hl
    rw [opScan.eq_def]
    simp only [Nat.not_lt_zero, if_false, Nat.lt_irrefl]
    by_cases hpre : op.isPrefixOf rest = true
    · have : op = [] := hl op (by simp) hpre
      subst this
      simp only [hpre, if_true, List.length_nil, Nat.lt_irrefl, if_false, reduceIte]
      exact ih tbl best (fun x hx => hl x (by simp [hx]))
    · simp only [hpre, Bool.false_eq_true, if_false, reduceIte]
      exact ih tbl best (fun x hx => hl x (by simp [hx]))

/-- C10 (amended): for every source text containing NUL at a position
where a token would start, when no registered operator spelling matches
there, `next` returns the end-of-stream signal `None` even though further
characters remain, but does not consume the NUL: it is pushed back, so
the cursor stays at the same position and every subsequent call meets the
same NUL again.  An embedded NUL therefore ends the usable token stream
exactly like the synthetic end-of-input sentinel. -/
theorem C10_embedded_nul (src : Str) (p : Nat) (tbl : Table) (ops : List Str)
    (rest2 : Str) (hdrop : src.drop p = '\x00' :: rest2)
    (hops : ∀ op ∈ ops, op.isPrefixOf (src.drop p) = true → op = []) :
    ∃ st1, Lexer.next (lexerAt src p tbl ops) = Except.ok (none, st1) ∧
      streamPos src.length st1.stream = p := by
  have hstream : List.enumFrom p (src.drop p) = (p, '\x00') :: List.enumFrom (p + 1) rest2 := by
    rw [hdrop, List.enumFrom_cons]
  have hscan := opScan_no_match (src.drop p) (ops.drop
      (lowerBound ops (sliceStr src p (streamPos src.length (List.enumFrom (p + 1) rest2)))))
    (tbl.intern []).2 (tbl.intern []).1
    (fun op hop hpre => hops op (List.mem_of_mem_drop hop) hpre)
  cases rest2 with
  | nil =>
    refine ⟨⟨src, (p, '\x00') :: (src.length, '\x00') :: [], (tbl.intern []).2, ops⟩, ?_, rfl⟩
    simp only [Lexer.next, lexerAt, hstream, List.enumFrom_nil, tick,
      show is_xid_start '\x00' = false from rfl, show is_whitespace '\x00' = false from rfl,
      show to_digit '\x00' 10 = none from rfl,
      show (('\x00' : Char) == '"') = false from rfl,
      show (('\x00' : Char) == '/') = false from rfl,
      Bool.false_eq_true, if_false, lexOperator]
    simp only [List.enumFrom_nil, streamPos] at hscan
    rw [hscan]
    simp only [opConsume, Nat.add_zero]
    simp [show (('\x00' : Char) == '\x00') = true from rfl]
  | cons c2 rs =>
    refine ⟨⟨src, (p, '\x00') :: (p + 1, c2) :: List.enumFrom (p + 2) rs,
      (tbl.intern []).2, ops⟩, ?_, rfl⟩
    simp only [Lexer.next, lexerAt, hstream, List.enumFrom_cons, tick,
      show is_xid_start '\x00' = false from rfl, show is_whitespace '\x00' = false from rfl,
      show to_digit '\x00' 10 = none from rfl,
      show (('\x00' : Char) == '"') = false from rfl,
      show (('\x00' : Char) == '/') = false from rfl,
      Bool.false_eq_true, if_false, lexOperator]
    simp only [List.enumFrom_cons, streamPos] at hscan
    rw [hscan]
    simp only [opConsume, Nat.add_zero]
    simp [show (('\x00' : Char) == '\x00') = true from rfl]

/-- Witness for C10: lexing `<NUL>+` with no operators registered
returns `None` with the cursor still at position 0. -/
theorem C10_witness :
    ∃ st1, Lexer.next (lexerAt ['\x00', '+'] 0 (Table.new 0) []) = Except.ok (none, st1) ∧
      streamPos (['\x00', '+'] : Str).length st1.stream = 0 :=
  C10_embedded_nul ['\x00', '+'] 0 (Table.new 0) [] ['+'] rfl (by simp)

/-! ### Token-shape lemmas: only the operator block emits `Token.Operator` -/

/-- The comment loop never produces an operator token. -/
theorem commentLoop_not_op (src : Str) (fi last depth : Nat) (s : List (Nat × Char)) :
    ∀ sym, (commentLoop src fi last depth s).1 ≠ Token.Operator sym := by
  induction last, depth, s using commentLoop.induct src fi <;>
    (intro sym; rw [commentLoop.eq_def]) <;> simp_all [beq_iff_eq]

/-- The decimal tail of the number scanner never produces an operator token. -/
theorem lexDecimalExp_not_op (src : Str) (len fi li : Nat) (sd : Bool)
    (s : List (Nat × Char)) :
    ∀ tok s1 sym, lexDecimalExp src len fi li sd s = Except.ok (tok, s1) →
      tok ≠ Token.Operator sym := by
  intro tok s1 sym h
  simp only [lexDecimalExp] at h
  repeat' split at h
  all_goals solve
    | (simp only [Except.ok.injEq, Prod.mk.injEq] at h; cases h.1; simp)
    | simp_all

/-- The number scanner never produces an operator token. -/
theorem lexNumber_not_op (src : Str) (len fi d : Nat) (s : List (Nat × Char)) :
    ∀ tok s1 sym, lexNumber src len fi d s = Except.ok (tok, s1) →
      tok ≠ Token.Operator sym := by
  intro tok s1 sym h
  simp only [lexNumber] at h
  repeat' split at h
  all_goals solve
    | (exact lexDecimalExp_not_op _ _ _ _ _ _ _ _ _ h)
    | (simp only [Except.ok.injEq, Prod.mk.injEq] at h; cases h.1; simp)
    | simp_all

/-- The string loop never produces an operator token. -/
theorem strLoop_not_op (src : Str) (si : Nat) (out : Str) (s : List (Nat × Char)) :
    ∀ s1 sym, strLoop src si out s ≠ Except.ok (Token.Operator sym, s1) := by
  induction out, s using strLoop.induct src si
  case case17 _ _ _ _ _ _ _ _ _ _ _ _ _ _ _ _ _ _ _ _ hu =>
    intro s1 sym h
    rw [strLoop.eq_def] at h
    simp only [] at h
    simp only [*, if_true, if_false, ite_true, ite_false] at h
    rw [hu] at h
    simp at h
  case case18 _ _ _ _ _ _ _ _ _ _ _ _ _ _ _ _ _ _ _ _ hu _ hemp =>
    intro s1 sym h
    rw [strLoop.eq_def] at h
    simp only [] at h
    simp only [*, if_true, if_false, ite_true, ite_false] at h
    rw [hu] at h
    simp [hemp] at h
  case case19 _ _ _ _ _ _ _ _ _ _ _ _ _ _ _ _ _ _ _ _ hu _ hnemp _ hch ih =>
    intro s1 sym h
    rw [strLoop.eq_def] at h
    simp only [] at h
    simp only [*, if_true, if_false, ite_true, ite_false] at h
    rw [hu] at h
    simp only [] at h
    rw [if_neg hnemp] at h
    rw [hch] at h
    simp only [] at h
    exact ih _ _ h
  case case20 _ _ _ _ _ _ _ _ _ _ _ _ _ _ _ _ _ _ _ _ hu _ hnemp hcn =>
    intro s1 sym h
    rw [strLoop.eq_def] at h
    simp only [] at h
    simp only [*, if_true, if_false, ite_true, ite_false] at h
    rw [hu] at h
    simp only [] at h
    rw [if_neg hnemp] at h
    rw [hcn] at h
    simp at h
  all_goals
    (intro s1 sym h
     rw [strLoop.eq_def] at h)
  all_goals simp_all

/-! ### C3: longest operator match

The registry is sorted strictly (byte-lexicographically, `lexLt`); the scan
starting at the binary-search lower bound with its early exit still finds a
longest registered spelling that prefixes the remaining input. -/

/-- A prefix is no longer than the list it prefixes. -/
theorem pref_length {a b : Str} (h : a.isPrefixOf b = true) : a.length ≤ b.length := by
  induction a generalizing b with
  | nil => simp
  | cons x xs ih =>
    cases b with
    | nil => simp [List.isPrefixOf] at h
    | cons y ys =>
      simp only [List.isPrefixOf, Bool.and_eq_true] at h
      simpa using ih h.2

/-- Only the empty list prefixes the empty list. -/
theorem pref_of_nil {a : Str} (h : a.isPrefixOf ([] : Str) = true) : a = [] := by
  cases a with
  | nil => rfl
  | cons x xs => simp [List.isPrefixOf] at h

/-- Two prefixes of the same list are comparable. -/
theorem prefOrPref {a b r : Str} (ha : a.isPrefixOf r = true) (hb : b.isPrefixOf r = true) :
    a.isPrefixOf b = true ∨ b.isPrefixOf a = true := by
  induction r generalizing a b with
  | nil =>
    left
    rw [pref_of_nil ha, pref_of_nil hb]
    simp [List.isPrefixOf]
  | cons z zs ih =>
    cases a with
    | nil => left; simp [List.isPrefixOf]
    | cons x xs =>
      cases b with
      | nil => right; simp [List.isPrefixOf]
      | cons y ys =>
        simp only [List.isPrefixOf, Bool.and_eq_true, beq_iff_eq] at ha hb
        obtain ⟨rfl, ha2⟩ := ha
        obtain ⟨rfl, hb2⟩ := hb
        rcases ih ha2 hb2 with h | h
        · left; simp [List.isPrefixOf, h]
        · right; simp [List.isPrefixOf, h]

/-- Byte-lexicographic order is asymmetric. -/
theorem lexLt_asymm {a b : Str} (h1 : lexLt a b = true) (h2 : lexLt b a = true) : False := by
  induction a generalizing b with
  | nil => cases b <;> simp [lexLt] at h1 h2
  | cons x xs ih =>
    cases b with
    | nil => simp [lexLt] at h1
    | cons y ys =>
      simp only [lexLt, Bool.or_eq_true, Bool.and_eq_true, decide_eq_true_eq,
        beq_iff_eq] at h1 h2
      rcases h1 with h1 | ⟨rfl, h1⟩
      · rcases h2 with h2 | ⟨rfl, h2⟩
        · exact absurd h1 (not_lt.mpr (le_of_lt h2))
        · exact absurd h1 (lt_irrefl _)
      · rcases h2 with h2 | ⟨-, h2⟩
        · exact absurd h2 (lt_irrefl _)
        · exact ih h1 h2

/-- Byte-lexicographic order is transitive. -/
theorem lexLt_trans {a b c : Str} (h1 : lexLt a b = true) (h2 : lexLt b c = true) :
    lexLt a c = true := by
  induction a generalizing b c with
  | nil =>
    cases b with
    | nil => simp [lexLt] at h1
    | cons y ys =>
      cases c with
      | nil => simp [lexLt] at h2
      | cons z zs => simp [lexLt]
  | cons x xs ih =>
    cases b with
    | nil => simp [lexLt] at h1
    | cons y ys =>
      cases c with
      | nil => simp [lexLt] at h2
      | cons z zs =>
        simp only [lexLt, Bool.or_eq_true, Bool.and_eq_true, decide_eq_true_eq,
          beq_iff_eq] at h1 h2 ⊢
        rcases h1 with h1 | ⟨rfl, h1⟩
        · rcases h2 with h2 | ⟨rfl, h2⟩
          · exact Or.inl (lt_trans h1 h2)
          · exact Or.inl h1
        · rcases h2 with h2 | ⟨rfl, h2⟩
          · exact Or.inl h2
          · exact Or.inr ⟨rfl, ih h1 h2⟩

/-- Key order fact: if `a` is below `c` and `a` prefixes `b`, then either `a`
also prefixes `c`, or `b` is below `c` as well.  (Contrapositive: everything
ordered between a string and one of its extensions shares that prefix.) -/
theorem lexLt_step {a c : Str} (h : lexLt a c = true) :
    ∀ {b : Str}, a.isPrefixOf b = true →
      a.isPrefixOf c = true ∨ lexLt b c = true := by
  induction a generalizing c with
  | nil => intro b hp; left; simp [List.isPrefixOf]
  | cons x xs ih =>
    intro b hp
    cases c with
    | nil => simp [lexLt] at h
    | cons z zs =>
      cases b with
      | nil => simp [List.isPrefixOf] at hp
      | cons y ys =>
        simp only [List.isPrefixOf, Bool.and_eq_true, beq_iff_eq] at hp
        obtain ⟨rfl, hp2⟩ := hp
        simp only [lexLt, Bool.or_eq_true, Bool.and_eq_true, decide_eq_true_eq,
          beq_iff_eq] at h
        rcases h with h | ⟨rfl, h⟩
        · right
          simp only [lexLt, Bool.or_eq_true, decide_eq_true_eq]
          exact Or.inl h
        · rcases ih h hp2 with h2 | h2
          · left
            simp only [List.isPrefixOf, Bool.and_eq_true, beq_iff_eq]
            exact ⟨trivial, h2⟩
          · right
            simp only [lexLt, Bool.or_eq_true, Bool.and_eq_true, decide_eq_true_eq,
              beq_iff_eq]
            exact Or.inr ⟨trivial, h2⟩

/-- Main invariant of the scan with early exit: on a strictly sorted slice of
the registry, the final best length bounds the length of every candidate that
prefixes the remaining input; the running maximum never decreases; and the
returned symbol either is the incoming one unchanged or spells a prefix of the
remaining input of exactly the returned length. -/
theorem opScan_longest (rest : Str) (l : List Str) :
    ∀ (tbl : Table) (maxLen : Nat) (best : Symbol),
      List.Pairwise (fun a b => lexLt a b = true) l →
      TableWF tbl →
      (maxLen = 0 ∨ (best.text.isPrefixOf rest = true ∧ best.text.length = maxLen ∧
        0 < maxLen ∧ ∀ o ∈ l, lexLt best.text o = true)) →
      (∀ op ∈ l, op.isPrefixOf rest = true → op.length ≤ (opScan rest l tbl maxLen best).1) ∧
      maxLen ≤ (opScan rest l tbl maxLen best).1 ∧
      ((opScan rest l tbl maxLen best).1 = maxLen ∧ (opScan rest l tbl maxLen best).2.1 = best ∨
        ((opScan rest l tbl maxLen best).2.1.text.isPrefixOf rest = true ∧
         (opScan rest l tbl maxLen best).2.1.text.length = (opScan rest l tbl maxLen best).1 ∧
         0 < (opScan rest l tbl maxLen best).1)) := by
  induction l with
  | nil =>
    intro tbl maxLen best hpw htw hinv
    simp [opScan]
  | cons op rem ih =>
    intro tbl maxLen best hpw htw hinv
    obtain ⟨hrel, hpw2⟩ := List.pairwise_cons.mp hpw
    rw [opScan]
    split
    case isTrue hlt =>
      refine ⟨?_, le_refl _, Or.inl ⟨rfl, rfl⟩⟩
      intro o ho hpo
      rcases List.mem_cons.mp ho with rfl | ho
      · exact le_of_lt hlt
      · rcases hinv with rfl | ⟨hbp, hbl, hbpos, hball⟩
        · omega
        · rcases prefOrPref hpo hbp with h1 | h1
          · calc o.length ≤ best.text.length := pref_length h1
              _ = maxLen := hbl
          · rcases lexLt_step (hball op (List.mem_cons_self op rem)) h1 with h2 | h2
            · have := pref_length h2
              omega
            · exact absurd h2 (fun h2 => lexLt_asymm (hrel o ho) h2)
    case isFalse hnlt =>
      split
      case isTrue hpre =>
        split
        case isTrue hgt =>
          simp only []
          have hsym := intern_sym htw op
          have htw1 := intern_preserves_wf htw op
          have hrec := ih (tbl.intern op).2 op.length (tbl.intern op).1 hpw2 htw1
            (Or.inr ⟨by rw [hsym.1]; exact hpre, by rw [hsym.1], by omega,
              fun o ho => by rw [hsym.1]; exact hrel o ho⟩)
          refine ⟨?_, ?_, ?_⟩
          · intro o ho hpo
            rcases List.mem_cons.mp ho with rfl | ho
            · exact hrec.2.1
            · exact hrec.1 o ho hpo
          · exact le_trans (le_of_lt hgt) hrec.2.1
          · rcases hrec.2.2 with ⟨he, hb⟩ | hr
            · right
              rw [he, hb]
              exact ⟨by rw [hsym.1]; exact hpre, by rw [hsym.1], by omega⟩
            · right
              exact hr
        case isFalse hngt =>
          have heq : op.length = maxLen := by omega
          have hinv2 : maxLen = 0 ∨ (best.text.isPrefixOf rest = true ∧
              best.text.length = maxLen ∧ 0 < maxLen ∧
              ∀ o ∈ rem, lexLt best.text o = true) := by
            rcases hinv with h | ⟨h1, h2, h3, h4⟩
            · exact Or.inl h
            · exact Or.inr ⟨h1, h2, h3, fun o ho => h4 o (List.mem_cons_of_mem _ ho)⟩
          have hrec := ih tbl maxLen best hpw2 htw hinv2
          refine ⟨?_, hrec.2.1, hrec.2.2⟩
          intro o ho hpo
          rcases List.mem_cons.mp ho with rfl | ho
          · rw [heq]; exact hrec.2.1
          · exact hrec.1 o ho hpo
      case isFalse hnpre =>
        have hinv2 : maxLen = 0 ∨ (best.text.isPrefixOf rest = true ∧
            best.text.length = maxLen ∧ 0 < maxLen ∧
            ∀ o ∈ rem, lexLt best.text o = true) := by
          rcases hinv with h | ⟨h1, h2, h3, h4⟩
          · exact Or.inl h
          · exact Or.inr ⟨h1, h2, h3, fun o ho => h4 o (List.mem_cons_of_mem _ ho)⟩
        have hrec := ih tbl maxLen best hpw2 htw hinv2
        refine ⟨?_, hrec.2.1, hrec.2.2⟩
        intro o ho hpo
        rcases List.mem_cons.mp ho with rfl | ho
        · exact absurd hpo (by simp [hnpre])
        · exact hrec.1 o ho hpo

/-- Taking as many elements as `takeWhile` keeps recovers `takeWhile`. -/
theorem take_takeWhile_len {α : Type} (p : α → Bool) (l : List α) :
    l.take (l.takeWhile p).length = l.takeWhile p := by
  induction l with
  | nil => rfl
  | cons x xs ih =>
    by_cases h : p x = true
    · simp [List.takeWhile_cons, h, List.take_cons, ih]
    · simp [List.takeWhile_cons, h]

/-- An operator below the one-character search key that still prefixes the
remaining input must be empty, so the registry entries skipped by the
binary-search lower bound never match. -/
theorem lexLt_key_elim {op : Str} {c : Char} {r2 : Str}
    (hlt : lexLt op [c] = true) (hpre : op.isPrefixOf (c :: r2) = true) : op = [] := by
  cases op with
  | nil => rfl
  | cons o1 os =>
    simp only [List.isPrefixOf, Bool.and_eq_true, beq_iff_eq] at hpre
    obtain ⟨rfl, -⟩ := hpre
    simp only [lexLt, Bool.or_eq_true, Bool.and_eq_true, decide_eq_true_eq,
      beq_iff_eq] at hlt
    rcases hlt with h | ⟨-, h⟩
    · exact absurd h (lt_irrefl _)
    · cases os <;> simp [lexLt] at h

/-- The one-character slice starting at a position holding `c`. -/
theorem sliceOne (src : Str) (p : Nat) (c : Char) (r2 : Str)
    (hdrop : src.drop p = c :: r2) : sliceStr src p (p + 1) = [c] := by
  unfold sliceStr
  rw [hdrop, show p + 1 - p = 1 from by omega]
  rfl

/-- The slice from the last character to the end of the source. -/
theorem sliceOneLen (src : Str) (p : Nat) (c : Char)
    (hdrop : src.drop p = [c]) : sliceStr src p src.length = [c] := by
  unfold sliceStr
  rw [hdrop]
  have h := List.length_drop p src
  rw [hdrop] at h
  rw [show src.length - p = 1 from by simpa using h.symm]
  rfl

/-- Whenever the operator block emits a token, its spelling is at least as
long as every registered spelling that prefixes the remaining input. -/
theorem lexOperator_longest (src : Str) (len : Nat) (tbl : Table) (ops : List Str)
    (p : Nat) (c : Char) (sOp : List (Nat × Char)) (r2 : Str)
    (hpw : List.Pairwise (fun a b => lexLt a b = true) ops)
    (htw : TableWF tbl)
    (hdrop : src.drop p = c :: r2)
    (hkey : sliceStr src p (tick len sOp).1.1 = [c]) :
    match lexOperator src len tbl ops p c sOp with
    | Except.ok (some (Token.Operator sym), _, _) =>
        ∀ op ∈ ops, op.isPrefixOf (src.drop p) = true → op.length ≤ sym.text.length
    | _ => True := by
  rcases htick : tick len sOp with ⟨⟨ei, ec⟩, s1⟩
  rw [htick] at hkey
  rcases hin : tbl.intern [] with ⟨sym0, tbl1⟩
  rcases hsc : opScan (src.drop p) (ops.drop (lowerBound ops (sliceStr src p ei)))
      tbl1 0 sym0 with ⟨maxLen, best, tbl2⟩
  simp only [lexOperator, htick, hin, hsc]
  rcases hoc : opConsume len (p + maxLen) ((p, c) :: (ei, ec) :: s1) with e | s2
  · simp
  · simp only []
    by_cases hml : maxLen > 0
    · rw [if_pos hml]
      simp only []
      intro op hop hpre
      have htw1 : TableWF tbl1 := by
        have := intern_preserves_wf htw ([] : Str)
        rw [hin] at this
        exact this
      have hscan := opScan_longest (src.drop p)
        (ops.drop (lowerBound ops (sliceStr src p ei))) tbl1 0 sym0
        (hpw.sublist (List.drop_sublist _ _)) htw1 (Or.inl rfl)
      rw [hsc] at hscan
      have hbl : best.text.length = maxLen := by
        rcases hscan.2.2 with ⟨h0, -⟩ | ⟨-, h1, -⟩
        · omega
        · exact h1
      have hsplit := List.take_append_drop (lowerBound ops (sliceStr src p ei)) ops
      have hop2 : op ∈ ops.take (lowerBound ops (sliceStr src p ei)) ∨
          op ∈ ops.drop (lowerBound ops (sliceStr src p ei)) := by
        rw [← List.mem_append, hsplit]
        exact hop
      rcases hop2 with hmem | hmem
      · rw [hkey] at hmem
        rw [show ops.take (lowerBound ops [c]) = ops.takeWhile (fun o => lexLt o [c]) from
          take_takeWhile_len _ _] at hmem
        have hlt := List.mem_takeWhile_imp hmem
        rw [hdrop] at hpre
        rw [lexLt_key_elim hlt hpre]
        simp
      · rw [hbl]
        exact hscan.1 op hmem hpre
    · rw [if_neg hml]
      by_cases hc0 : (c == '\x00') = true
      · rw [if_pos hc0]; trivial
      · rw [if_neg hc0]; trivial

/-- Case of `Lexer.next` with at least one character left: every branch either
emits a non-operator token or defers to the operator block, whose search key is
the one-character slice at the cursor. -/
theorem nextOperatorLongestAux (src : Str) (p : Nat) (tbl : Table) (ops : List Str)
    (c : Char) (r2 : Str)
    (hpw : List.Pairwise (fun a b => lexLt a b = true) ops)
    (htw : TableWF tbl)
    (hdrop : src.drop p = c :: r2) :
    match Lexer.next (lexerAt src p tbl ops) with
    | Except.ok (some (Token.Operator sym), _) =>
        ∀ op ∈ ops, op.isPrefixOf (src.drop p) = true → op.length ≤ sym.text.length
    | _ => True := by
  have hstream : List.enumFrom p (src.drop p) = (p, c) :: List.enumFrom (p + 1) r2 := by
    rw [hdrop, List.enumFrom_cons]
  by_cases hxid : is_xid_start c = true
  · simp only [Lexer.next, lexerAt, hstream, tick, hxid, if_true]
  · rw [Bool.not_eq_true] at hxid
    by_cases hws : is_whitespace c = true
    · simp only [Lexer.next, lexerAt, hstream, tick, hxid, Bool.false_eq_true, if_false,
        hws, if_true]
    · rw [Bool.not_eq_true] at hws
      rcases hdig : to_digit c 10 with - | d
      · by_cases hq : (c == '"') = true
        · simp only [Lexer.next, lexerAt, hstream, tick, hxid, hws, Bool.false_eq_true,
            if_false, hdig, hq, if_true, lexString]
          by_cases hlt2 : p + 1 < src.length
          · rw [if_pos hlt2]
            rcases hs : strLoop src (p + 1) [] (List.enumFrom (p + 1) r2) with e | ⟨tok, s1⟩
            · simp only [hs]
            · simp only [hs]
              cases tok <;> try trivial
              exact absurd hs (strLoop_not_op src (p + 1) [] _ _ _)
          · rw [if_neg hlt2]
            trivial
        · rw [Bool.not_eq_true] at hq
          by_cases hsl : (c == '/') = true
          · cases r2 with
            | nil =>
              simp only [Lexer.next, lexerAt, hstream, List.enumFrom_nil, tick, hxid, hws,
                Bool.false_eq_true, if_false, hdig, hq, hsl, if_true,
                show (('\x00' : Char) == '*') = false from rfl]
              rcases hlo : lexOperator src src.length tbl ops p c [(src.length, '\x00')]
                with e | ⟨res, s2, tbl2⟩
              · simp only [hlo]
              · simp only [hlo]
                rcases res with - | tok
                · trivial
                · cases tok <;> try trivial
                  intro op hop hpre
                  have hlem := lexOperator_longest src src.length tbl ops p c
                    [(src.length, '\x00')] [] hpw htw hdrop
                    (by simp only [tick]; exact sliceOneLen src p c hdrop)
                  rw [hlo] at hlem
                  exact hlem op hop hpre
            | cons d r3 =>
              by_cases hst : (d == '*') = true
              · simp only [Lexer.next, lexerAt, hstream, List.enumFrom_cons, tick, hxid,
                  hws, Bool.false_eq_true, if_false, hdig, hq, hsl, if_true, hst]
                rcases hcl : commentLoop src p (p + 1) 1 (List.enumFrom (p + 2) r3)
                  with ⟨tok, s2⟩
                simp only [hcl]
                cases tok <;> try trivial
                rename_i sym
                have hnop := commentLoop_not_op src p (p + 1) 1 (List.enumFrom (p + 2) r3) sym
                rw [hcl] at hnop
                exact absurd rfl hnop
              · simp only [Lexer.next, lexerAt, hstream, List.enumFrom_cons, tick, hxid,
                  hws, Bool.false_eq_true, if_false, hdig, hq, hsl, if_true, hst]
                rcases hlo : lexOperator src src.length tbl ops p c
                  ((p + 1, d) :: List.enumFrom (p + 2) r3) with e | ⟨res, s2, tbl2⟩
                · simp only [hlo]
                · simp only [hlo]
                  rcases res with - | tok
                  · trivial
                  · cases tok <;> try trivial
                    intro op hop hpre
                    have hlem := lexOperator_longest src src.length tbl ops p c
                      ((p + 1, d) :: List.enumFrom (p + 2) r3) (d :: r3) hpw htw hdrop
                      (by simp only [tick]; exact sliceOne src p c (d :: r3) hdrop)
                    rw [hlo] at hlem
                    exact hlem op hop hpre
          · simp only [Lexer.next, lexerAt, hstream, tick, hxid, hws, Bool.false_eq_true,
              if_false, hdig, hq, hsl]
            rcases hlo : lexOperator src src.length tbl ops p c (List.enumFrom (p + 1) r2)
              with e | ⟨res, s2, tbl2⟩
            · simp only [hlo]
            · simp only [hlo]
              rcases res with - | tok
              · trivial
              · cases tok <;> try trivial
                intro op hop hpre
                have hkey : sliceStr src p
                    (tick src.length (List.enumFrom (p + 1) r2)).1.1 = [c] := by
                  cases r2 with
                  | nil => simp only [List.enumFrom_nil, tick]; exact sliceOneLen src p c hdrop
                  | cons d r3 =>
                    simp only [List.enumFrom_cons, tick]
                    exact sliceOne src p c (d :: r3) hdrop
                have hlem := lexOperator_longest src src.length tbl ops p c
                  (List.enumFrom (p + 1) r2) r2 hpw htw hdrop hkey
                rw [hlo] at hlem
                exact hlem op hop hpre
      · simp only [Lexer.next, lexerAt, hstream, tick, hxid, hws, Bool.false_eq_true,
          if_false, hdig]
        rcases hn : lexNumber src src.length p d (List.enumFrom (p + 1) r2) with e | ⟨tok, s1⟩
        · simp only [hn]
        · simp only [hn]
          cases tok <;> try trivial
          exact absurd rfl (lexNumber_not_op src src.length p d _ _ _ _ hn)

/-- C3: for every registered operator set (a sorted, duplicate-free list of
spellings, modelled by strict pairwise `lexLt`) and every position at which
`Lexer::next()` emits an `Operator` token, the spelling of that token is at
least as long as every other registered spelling that is also a literal prefix
of the remaining input at that position, despite the scan's early exit when it
meets a candidate shorter than the current best match. -/
theorem C3_longest_operator_match (src : Str) (p : Nat) (tbl : Table) (ops : List Str)
    (hpw : List.Pairwise (fun a b => lexLt a b = true) ops)
    (htw : TableWF tbl) :
    match Lexer.next (lexerAt src p tbl ops) with
    | Except.ok (some (Token.Operator sym), _) =>
        ∀ op ∈ ops, op.isPrefixOf (src.drop p) = true → op.length ≤ sym.text.length
    | _ => True := by
  obtain hnil | ⟨c, r2, hcons⟩ : src.drop p = [] ∨ ∃ c r2, src.drop p = c :: r2 := by
    cases src.drop p with
    | nil => exact Or.inl rfl
    | cons c r2 => exact Or.inr ⟨c, r2, rfl⟩
  · rcases hres : Lexer.next (lexerAt src p tbl ops) with e | ⟨otok, st1⟩
    · trivial
    · rcases otok with - | tok
      · trivial
      · cases tok <;> try trivial
        intro op hop hpre
        rw [hnil] at hpre
        rw [pref_of_nil hpre]
        simp
  · exact nextOperatorLongestAux src p tbl ops c r2 hpw htw hcons

/-- Witness for C3: with the sorted registry `+`, `++` on input `++`, the
emitted operator is the two-character spelling, which bounds both registered
prefixes. -/
theorem C3_witness :
    List.Pairwise (fun a b => lexLt a b = true) ([['+'], ['+', '+']] : List Str) ∧
    TableWF (Table.new 0) ∧
    (match Lexer.next (lexerAt ['+', '+'] 0 (Table.new 0) [['+'], ['+', '+']]) with
     | Except.ok (some (Token.Operator sym), _) =>
         ∀ op ∈ ([['+'], ['+', '+']] : List Str),
           op.isPrefixOf ((['+', '+'] : Str).drop 0) = true → op.length ≤ sym.text.length
     | _ => True) :=
  ⟨by decide, by decide,
    C3_longest_operator_match ['+', '+'] 0 (Table.new 0) [['+'], ['+', '+']]
      (by decide) (by decide)⟩


/-! ### C1 and C2: the cursor-stream invariant

Reachable cursor streams are suffix streams padded with already-produced
end-of-input sentinels, possibly with the cursor pair pushed back twice
after a failed radix prefix.  Every loop of the lexer preserves this
shape, which rules out the modelled divergence of the operator consume
loop and pins down the panic messages and the span structure. -/

/-- The cursor stream holding the source suffix at `p` followed by `k`
end-of-input sentinels already produced and pushed back. -/
def padStream (src : Str) (p k : Nat) : List (Nat × Char) :=
  List.enumFrom p (src.drop p) ++ List.replicate k (src.length, '\x00')

theorem pad_nil (src : Str) : padStream src src.length 0 = [] := by
  simp [padStream, List.drop_length]

theorem pad_sent (src : Str) (k : Nat) :
    padStream src src.length (k + 1) =
      (src.length, '\x00') :: padStream src src.length k := by
  simp [padStream, List.drop_length, List.replicate_succ]

theorem drop_succ_of_cons {src : Str} {p : Nat} {c : Char} {r : Str}
    (h : src.drop p = c :: r) : src.drop (p + 1) = r := by
  have := List.tail_drop src p
  rw [h] at this
  simpa using this.symm

theorem pad_cons {src : Str} {p : Nat} {c : Char} {r : Str} (k : Nat)
    (h : src.drop p = c :: r) :
    padStream src p k = (p, c) :: padStream src (p + 1) k := by
  unfold padStream
  rw [h, List.enumFrom_cons, drop_succ_of_cons h]
  rfl

theorem pos_lt_of_cons {src : Str} {p : Nat} {c : Char} {r : Str}
    (h : src.drop p = c :: r) : p < src.length := by
  by_contra hge
  rw [List.drop_eq_nil_of_le (by omega)] at h
  exact absurd h (by simp)

theorem drop_of_ge {src : Str} {p : Nat} (h : src.length ≤ p) : src.drop p = [] :=
  List.drop_eq_nil_of_le h

/-- `streamPos` of a padded stream is its position parameter. -/
theorem streamPos_pad (src : Str) (p k : Nat) (hp : p ≤ src.length) :
    streamPos src.length (padStream src p k) = p := by
  rcases hdrop : src.drop p with - | ⟨c, r⟩
  · have hpe : p = src.length := by
      have := List.length_drop p src
      rw [hdrop] at this
      simp at this
      omega
    subst hpe
    cases k with
    | zero => rw [pad_nil]; rfl
    | succ k => rw [pad_sent]; rfl
  · rw [pad_cons k hdrop]; rfl

theorem to_digit_nul (radix : Nat) : to_digit '\x00' radix = none := by
  simp [to_digit]

theorem scanRun_pad (src : Str) (pred : Char → Bool) (hn : pred '\x00' = false) :
    ∀ N p k, src.length - p + k ≤ N → p ≤ src.length →
      ∃ q k2, p ≤ q ∧ q ≤ src.length ∧
        scanRun src.length pred (padStream src p k) = (q, padStream src q k2) := by
  intro N
  induction N with
  | zero =>
    intro p k hm hp
    have hpl : p = src.length := by omega
    have hk : k = 0 := by omega
    subst hpl hk
    refine ⟨src.length, 1, le_refl _, le_refl _, ?_⟩
    rw [pad_nil, pad_sent, pad_nil]
    rfl
  | succ N ih =>
    intro p k hm hp
    rcases hdrop : src.drop p with - | ⟨c, r⟩
    · have hpl : p = src.length := by
        have := List.length_drop p src
        rw [hdrop] at this
        simp at this
        omega
      subst hpl
      cases k with
      | zero =>
        refine ⟨src.length, 1, le_refl _, le_refl _, ?_⟩
        rw [pad_nil, pad_sent, pad_nil]
        rfl
      | succ k =>
        refine ⟨src.length, k + 1, le_refl _, le_refl _, ?_⟩
        rw [pad_sent]
        simp only [scanRun, hn, Bool.false_eq_true, if_false]
    · have hplt : p < src.length := pos_lt_of_cons hdrop
      rw [pad_cons k hdrop]
      simp only [scanRun]
      by_cases hc : pred c = true
      · rw [if_pos hc]
        obtain ⟨q, k2, hq1, hq2, heq⟩ := ih (p + 1) k (by omega) (by omega)
        exact ⟨q, k2, by omega, hq2, heq⟩
      · rw [if_neg hc]
        exact ⟨p, k, le_refl _, le_of_lt hplt, by rw [← pad_cons k hdrop]⟩

theorem radixRun_pad (src : Str) (radix : Nat) :
    ∀ N p k, src.length - p + k ≤ N → p ≤ src.length →
      ∃ q k2, p ≤ q ∧ q ≤ src.length ∧
        (radixRun src.length radix (padStream src p k)).2 = padStream src q k2 := by
  intro N
  induction N with
  | zero =>
    intro p k hm hp
    have hpl : p = src.length := by omega
    have hk : k = 0 := by omega
    subst hpl hk
    exact ⟨src.length, 0, le_refl _, le_refl _, by rw [pad_nil]; rfl⟩
  | succ N ih =>
    intro p k hm hp
    rcases hdrop : src.drop p with - | ⟨c, r⟩
    · have hpl : p = src.length := by
        have := List.length_drop p src
        rw [hdrop] at this
        simp at this
        omega
      subst hpl
      cases k with
      | zero =>
        exact ⟨src.length, 0, le_refl _, le_refl _, by rw [pad_nil]; rfl⟩
      | succ k =>
        refine ⟨src.length, k, le_refl _, le_refl _, ?_⟩
        rw [pad_sent]
        simp only [radixRun, to_digit_nul, Option.isSome_none,
          show (('\x00' : Char) == '_') = false from rfl, Bool.or_self,
          Bool.false_eq_true, if_false]
    · have hplt : p < src.length := pos_lt_of_cons hdrop
      rw [pad_cons k hdrop]
      simp only [radixRun]
      by_cases hc : ((to_digit c radix).isSome || c == '_') = true
      · rw [if_pos hc]
        obtain ⟨q, k2, hq1, hq2, heq⟩ := ih (p + 1) k (by omega) (by omega)
        exact ⟨q, k2, by omega, hq2, heq⟩
      · rw [if_neg hc]
        exact ⟨p + 1, k, by omega, by omega, rfl⟩

theorem opConsume_pad (src : Str) :
    ∀ N p k target, src.length - p + k ≤ N → p ≤ target → target ≤ src.length →
      ∃ k2, opConsume src.length target (padStream src p k) =
        Except.ok (padStream src target k2) := by
  intro N
  induction N with
  | zero =>
    intro p k target hm hp ht
    have hpl : p = src.length := by omega
    have hk : k = 0 := by omega
    have htl : target = src.length := by omega
    subst hpl hk htl
    refine ⟨1, ?_⟩
    rw [pad_nil, pad_sent, pad_nil]
    simp [opConsume]
  | succ N ih =>
    intro p k target hm hp ht
    rcases hdrop : src.drop p with - | ⟨c, r⟩
    · have hpl : p = src.length := by
        have := List.length_drop p src
        rw [hdrop] at this
        simp at this
        omega
      subst hpl
      have htl : target = src.length := by omega
      subst htl
      cases k with
      | zero =>
        refine ⟨1, ?_⟩
        rw [pad_nil, pad_sent, pad_nil]
        simp [opConsume]
      | succ k =>
        refine ⟨k + 1, ?_⟩
        rw [pad_sent]
        simp only [opConsume]
        rw [if_pos (by simp)]
    · have hplt : p < src.length := pos_lt_of_cons hdrop
      by_cases hpt : p = target
      · subst hpt
        exact ⟨k, by rw [pad_cons k hdrop]; simp only [opConsume]; rw [if_pos (by simp),
          ← pad_cons k hdrop]⟩
      · rw [pad_cons k hdrop]
        simp only [opConsume]
        rw [if_neg (by simpa using hpt)]
        exact ih (p + 1) k target (by omega) (by omega) ht

/-- Streams reachable inside the scanning loops: a padded suffix stream. -/
def IsPad (src : Str) (s : List (Nat × Char)) : Prop :=
  ∃ p k, p ≤ src.length ∧ s = padStream src p k

theorem isPad_tail {src : Str} {i : Nat} {c : Char} {s : List (Nat × Char)}
    (h : IsPad src ((i, c) :: s)) :
    IsPad src s ∧ streamPos src.length ((i, c) :: s) ≤ streamPos src.length s ∧
      streamPos src.length s ≤ src.length := by
  obtain ⟨p, k, hp, heq⟩ := h
  rcases hdrop : src.drop p with - | ⟨ch, r⟩
  · have hpl : p = src.length := by
      have := List.length_drop p src
      rw [hdrop] at this
      simp at this
      omega
    subst hpl
    cases k with
    | zero => rw [pad_nil] at heq; cases heq
    | succ k =>
      rw [pad_sent] at heq
      obtain ⟨h1, h2⟩ := List.cons.inj heq
      refine ⟨⟨src.length, k, le_refl _, h2⟩, ?_, ?_⟩
      · rw [h2, streamPos_pad src _ _ (le_refl _)]
        cases h1
        simp only [streamPos]
        omega
      · rw [h2, streamPos_pad src _ _ (le_refl _)]
  · rw [pad_cons k hdrop] at heq
    obtain ⟨h1, h2⟩ := List.cons.inj heq
    have hplt : p < src.length := pos_lt_of_cons hdrop
    refine ⟨⟨p + 1, k, by omega, h2⟩, ?_, ?_⟩
    · rw [h2, streamPos_pad src _ _ (by omega)]
      cases h1
      simp only [streamPos]
      omega
    · rw [h2, streamPos_pad src _ _ (by omega)]
      omega

theorem isPad_pos_le {src : Str} {s : List (Nat × Char)} (h : IsPad src s) :
    streamPos src.length s ≤ src.length := by
  obtain ⟨p, k, hp, heq⟩ := h
  rw [heq, streamPos_pad src _ _ hp]
  exact hp

/-- The comment loop maps a padded stream to a padded stream no earlier in
the source. -/
theorem commentLoop_pad (src : Str) (fi : Nat) :
    ∀ (last depth : Nat) (s : List (Nat × Char)), IsPad src s →
      ∃ q k2, streamPos src.length s ≤ q ∧ q ≤ src.length ∧
        (commentLoop src fi last depth s).2 = padStream src q k2 := by
  intro last depth s
  induction last, depth, s using commentLoop.induct src fi with
  | case1 last depth =>
    intro hp
    exact ⟨src.length, 0, isPad_pos_le hp, le_refl _, by rw [pad_nil]; rfl⟩
  | case2 last depth i c hc =>
    intro hp
    refine ⟨src.length, 0, isPad_pos_le hp, le_refl _, ?_⟩
    rw [pad_nil, commentLoop.eq_def]
    simp [hc]
  | case3 last depth i c hc i2 c2 tl ih =>
    intro hp
    obtain ⟨hp2, hle2, -⟩ := isPad_tail hp
    obtain ⟨hp3, hle3, -⟩ := isPad_tail hp2
    obtain ⟨q, k2, hq1, hq2, heq⟩ := ih hp3
    refine ⟨q, k2, by omega, hq2, ?_⟩
    rw [commentLoop.eq_def]
    simp only [hc, if_true]
    exact heq
  | case4 last depth i c hc hc2 =>
    intro hp
    refine ⟨src.length, 0, isPad_pos_le hp, le_refl _, ?_⟩
    rw [pad_nil, commentLoop.eq_def]
    simp [hc, hc2]
  | case5 last depth i c hc hc2 i2 c2 tl hc3 hd =>
    intro hp
    obtain ⟨hp2, hle2, -⟩ := isPad_tail hp
    obtain ⟨⟨q, k2, hq, heq⟩, hle3, -⟩ := isPad_tail hp2
    have hq3 : streamPos src.length tl = q := by
      rw [heq]; exact streamPos_pad src _ _ hq
    refine ⟨q, k2, ?_, hq, ?_⟩
    · rw [hq3] at hle3
      simp only [streamPos] at hle2 hle3 ⊢
      omega
    · rw [commentLoop.eq_def]
      simp only [hc, Bool.false_eq_true, if_false, hc2, if_true, hc3, hd]
      exact heq
  | case6 last depth i c hc hc2 i2 c2 tl hc3 hd ih =>
    intro hp
    obtain ⟨hp2, hle2, -⟩ := isPad_tail hp
    obtain ⟨hp3, hle3, -⟩ := isPad_tail hp2
    obtain ⟨q, k2, hq1, hq2, heq⟩ := ih hp3
    refine ⟨q, k2, by omega, hq2, ?_⟩
    rw [commentLoop.eq_def]
    simp only [hc, Bool.false_eq_true, if_false, hc2, if_true, hc3, hd]
    exact heq
  | case7 last depth i c hc hc2 i2 c2 tl hc3 ih =>
    intro hp
    obtain ⟨hp2, hle2, -⟩ := isPad_tail hp
    obtain ⟨hp3, hle3, -⟩ := isPad_tail hp2
    obtain ⟨q, k2, hq1, hq2, heq⟩ := ih hp3
    refine ⟨q, k2, by omega, hq2, ?_⟩
    rw [commentLoop.eq_def]
    simp only [hc, Bool.false_eq_true, if_false, hc2, if_true, hc3]
    exact heq
  | case8 last depth i c tl hc hc2 hc3 =>
    intro hp
    obtain ⟨⟨q, k2, hq, heq⟩, hle2, -⟩ := isPad_tail hp
    have hq3 : streamPos src.length tl = q := by
      rw [heq]; exact streamPos_pad src _ _ hq
    refine ⟨q, k2, ?_, hq, ?_⟩
    · rw [hq3] at hle2
      simp only [streamPos] at hle2 ⊢
      omega
    · rw [commentLoop.eq_def]
      simp only [hc, Bool.false_eq_true, if_false, hc2, hc3, if_true]
      exact heq
  | case9 last depth i c tl hc hc2 hc3 ih =>
    intro hp
    obtain ⟨hp2, hle2, -⟩ := isPad_tail hp
    obtain ⟨q, k2, hq1, hq2, heq⟩ := ih hp2
    refine ⟨q, k2, by omega, hq2, ?_⟩
    rw [commentLoop.eq_def]
    simp only [hc, Bool.false_eq_true, if_false, hc2, hc3]
    exact heq

/-- The string loop fails only with the empty-unicode-escape panic. -/
theorem strLoop_err (src : Str) (si : Nat) (out : Str) (s : List (Nat × Char)) :
    ∀ e, strLoop src si out s = Except.error e → e = panicEmptyUnicodeMsg := by
  induction out, s using strLoop.induct src si
  case case17 _ _ _ _ _ _ _ _ _ _ _ _ _ _ _ _ _ _ _ _ hu =>
    intro e h
    rw [strLoop.eq_def] at h
    simp only [] at h
    simp only [*, Bool.false_eq_true, if_true, if_false, ite_true, ite_false] at h
    rw [hu] at h
    simp at h
  case case18 _ _ _ _ _ _ _ _ _ _ _ _ _ _ _ _ _ _ _ _ hu _ hemp =>
    intro e h
    rw [strLoop.eq_def] at h
    simp only [] at h
    simp only [*, Bool.false_eq_true, if_true, if_false, ite_true, ite_false] at h
    rw [hu] at h
    simp only [] at h
    rw [if_pos hemp] at h
    simp only [Except.error.injEq] at h
    exact h.symm
  case case19 _ _ _ _ _ _ _ _ _ _ _ _ _ _ _ _ _ _ _ _ hu _ hnemp _ hch ih =>
    intro e h
    rw [strLoop.eq_def] at h
    simp only [] at h
    simp only [*, Bool.false_eq_true, if_true, if_false, ite_true, ite_false] at h
    rw [hu] at h
    simp only [] at h
    rw [if_neg hnemp] at h
    rw [hch] at h
    simp only [] at h
    exact ih _ h
  case case20 _ _ _ _ _ _ _ _ _ _ _ _ _ _ _ _ _ _ _ _ hu _ hnemp hcn =>
    intro e h
    rw [strLoop.eq_def] at h
    simp only [] at h
    simp only [*, Bool.false_eq_true, if_true, if_false, ite_true, ite_false] at h
    rw [hu] at h
    simp only [] at h
    rw [if_neg hnemp] at h
    rw [hcn] at h
    simp at h
  all_goals
    (intro e h
     rw [strLoop.eq_def] at h)
  all_goals
    solve
      | simp_all
      | (simp only [] at h
         simp only [*, Bool.false_eq_true, if_true, if_false, ite_true, ite_false] at h
         simp_all)

theorem sfx1 {α : Type} (x : α) (t : List α) : t <:+ x :: t := List.suffix_cons x t

theorem sfx2 {α : Type} (x y : α) (t : List α) : t <:+ x :: y :: t :=
  (List.suffix_cons y t).trans (List.suffix_cons x (y :: t))

theorem sfx3 {α : Type} (x y z : α) (t : List α) : t <:+ x :: y :: z :: t :=
  (sfx2 y z t).trans (List.suffix_cons x (y :: z :: t))

theorem sfx4 {α : Type} (w x y z : α) (t : List α) : t <:+ w :: x :: y :: z :: t :=
  (sfx3 x y z t).trans (List.suffix_cons w (x :: y :: z :: t))

/-- The unicode-escape digit loop returns a suffix of its input stream. -/
theorem uEscLoop_sfx : ∀ (s : List (Nat × Char)) (i : Nat), (uEscLoop i s).2 <:+ s := by
  intro s
  induction s with
  | nil =>
    intro i
    simp only [uEscLoop]
    split <;> exact List.suffix_refl _
  | cons x tl ih =>
    intro i
    obtain ⟨idx, c⟩ := x
    simp only [uEscLoop]
    split
    · exact sfx1 _ _
    · split
      · exact sfx1 _ _
      · split
        · exact (ih (i + 1)).trans (sfx1 _ _)
        · exact sfx1 _ _

/-- The string loop returns a suffix of its input stream. -/
theorem strLoop_sfx (src : Str) (si : Nat) (out : Str) (s : List (Nat × Char)) :
    ∀ tok s1, strLoop src si out s = Except.ok (tok, s1) → s1 <:+ s := by
  induction out, s using strLoop.induct src si
  case case17 _ _ _ _ _ _ _ _ _ _ _ _ _ _ _ _ _ _ _ _ hu =>
    intro tok s1 h
    rw [strLoop.eq_def] at h
    simp only [] at h
    simp only [*, Bool.false_eq_true, if_true, if_false, ite_true, ite_false] at h
    rw [hu] at h
    simp only [Except.ok.injEq, Prod.mk.injEq] at h
    rcases h with ⟨-, rfl⟩
    have hs4 := congrArg Prod.snd hu
    simp only [] at hs4
    exact hs4 ▸ ((uEscLoop_sfx _ 0).trans (sfx3 _ _ _ _))
  case case18 _ _ _ _ _ _ _ _ _ _ _ _ _ _ _ _ _ _ _ _ hu _ hemp =>
    intro tok s1 h
    rw [strLoop.eq_def] at h
    simp only [] at h
    simp only [*, Bool.false_eq_true, if_true, if_false, ite_true, ite_false] at h
    rw [hu] at h
    simp only [] at h
    rw [if_pos hemp] at h
    cases h
  case case19 _ _ _ _ _ _ _ _ _ _ _ _ _ _ _ _ _ _ _ _ hu _ hnemp _ hch ih =>
    intro tok s1 h
    rw [strLoop.eq_def] at h
    simp only [] at h
    simp only [*, Bool.false_eq_true, if_true, if_false, ite_true, ite_false] at h
    rw [hu] at h
    simp only [] at h
    rw [if_neg hnemp] at h
    rw [hch] at h
    simp only [] at h
    have hs4 := congrArg Prod.snd hu
    simp only [] at hs4
    exact (ih _ _ h).trans (hs4 ▸ ((uEscLoop_sfx _ 0).trans (sfx3 _ _ _ _)))
  case case20 _ _ _ _ _ _ _ _ _ _ _ _ _ _ _ _ _ _ _ _ hu _ hnemp hcn =>
    intro tok s1 h
    rw [strLoop.eq_def] at h
    simp only [] at h
    simp only [*, Bool.false_eq_true, if_true, if_false, ite_true, ite_false] at h
    rw [hu] at h
    simp only [] at h
    rw [if_neg hnemp] at h
    rw [hcn] at h
    simp only [] at h
    simp only [Except.ok.injEq, Prod.mk.injEq] at h
    rcases h with ⟨-, rfl⟩
    have hs4 := congrArg Prod.snd hu
    simp only [] at hs4
    exact hs4 ▸ ((uEscLoop_sfx _ 0).trans (sfx3 _ _ _ _))
  all_goals
    (intro tok s1 h
     rw [strLoop.eq_def] at h
     try simp only [] at h
     try simp only [*, Bool.false_eq_true, if_true, if_false, ite_true, ite_false] at h)
  all_goals
    try (simp only [Except.ok.injEq, Prod.mk.injEq] at h
         rcases h with ⟨-, rfl⟩)
  all_goals
    solve
      | exact List.nil_suffix _
      | exact List.suffix_refl _
      | exact sfx1 _ _
      | exact sfx2 _ _ _
      | exact sfx3 _ _ _ _
      | exact sfx4 _ _ _ _ _
      | (rename_i ih; exact (ih _ _ h).trans (sfx2 _ _ _))
      | (rename_i ih; exact (ih _ _ h).trans (sfx1 _ _))
      | (rename_i ih; exact (ih _ _ h).trans (sfx4 _ _ _ _ _))

/-- A suffix of a padded stream is itself a padded stream, no earlier. -/
theorem isPad_suffix {src : Str} :
    ∀ {s s1 : List (Nat × Char)}, IsPad src s → s1 <:+ s →
      ∃ q k2, streamPos src.length s ≤ q ∧ q ≤ src.length ∧ s1 = padStream src q k2 := by
  intro s
  induction s with
  | nil =>
    intro s1 hp hs
    rw [List.suffix_nil.mp hs]
    exact ⟨src.length, 0, by simp [streamPos], le_refl _, by rw [pad_nil]⟩
  | cons x t ih =>
    intro s1 hp hs
    obtain ⟨i, c⟩ := x
    rcases List.suffix_cons_iff.mp hs with rfl | hs2
    · obtain ⟨p, k, hpk, heq⟩ := hp
      refine ⟨p, k, ?_, hpk, heq⟩
      rw [heq, streamPos_pad src _ _ hpk]
    · obtain ⟨hp2, hle2, -⟩ := isPad_tail hp
      obtain ⟨q, k2, hq1, hq2, heq⟩ := ih hp2 hs2
      exact ⟨q, k2, by omega, hq2, heq⟩

/-- Ticking a padded stream yields the pair at its position; the remainder
is a padded stream, and pushing the pair back yields a padded stream at the
same position again (for any sentinel count of the remainder). -/
theorem tick_pad (src : Str) (p k : Nat) (hp : p ≤ src.length) :
    ∃ c p1 k1, p ≤ p1 ∧ p1 ≤ src.length ∧
      tick src.length (padStream src p k) = ((p, c), padStream src p1 k1) ∧
      (∀ K, ∃ K2, (p, c) :: padStream src p1 K = padStream src p K2) ∧
      ((c = '\x00' ∧ p = src.length) ∨ ∃ r, src.drop p = c :: r) := by
  rcases hdrop : src.drop p with - | ⟨ch, r⟩
  · have hpl : p = src.length := by
      have := List.length_drop p src
      rw [hdrop] at this
      simp at this
      omega
    subst hpl
    cases k with
    | zero =>
      refine ⟨'\x00', src.length, 0, le_refl _, le_refl _, ?_, ?_, Or.inl ⟨rfl, rfl⟩⟩
      · rw [pad_nil]; rfl
      · intro K
        exact ⟨K + 1, by rw [pad_sent]⟩
    | succ k =>
      refine ⟨'\x00', src.length, k, le_refl _, le_refl _, ?_, ?_, Or.inl ⟨rfl, rfl⟩⟩
      · rw [pad_sent]; rfl
      · intro K
        exact ⟨K + 1, by rw [pad_sent]⟩
  · have hplt : p < src.length := pos_lt_of_cons hdrop
    refine ⟨ch, p + 1, k, by omega, by omega, ?_, ?_, ?_⟩
    · rw [pad_cons k hdrop]; rfl
    · intro K
      exact ⟨K, by rw [pad_cons K hdrop]⟩
    · exact Or.inr ⟨r, rfl⟩

theorem isDigitU_nul : isDigitU '\x00' = false := by decide

/-- The decimal/exponent tail keeps the stream padded and errors only with
the out-of-range `i64` panic. -/
theorem lexDecimalExp_pad (src : Str) (fi li : Nat) (sd : Bool) (p k : Nat)
    (hp : p ≤ src.length) :
    match lexDecimalExp src src.length fi li sd (padStream src p k) with
    | Except.ok (_, s1) => ∃ q k2, p ≤ q ∧ q ≤ src.length ∧ s1 = padStream src q k2
    | Except.error e => e = panicI64Msg := by
  obtain ⟨c3, p1, k1, hp1a, hp1b, htick, huntick, -⟩ := tick_pad src p k hp
  simp only [lexDecimalExp, htick]
  by_cases hce : (c3 == 'e' || c3 == 'E') = true
  · rw [if_pos hce]
    obtain ⟨c4, p2, k2x, hp2a, hp2b, htick2, huntick2, -⟩ := tick_pad src p1 k1 hp1b
    simp only [htick2]
    by_cases hdig : (to_digit c4 10).isSome = true
    · rw [if_pos hdig]
      obtain ⟨q, k3, hq1, hq2, hscan⟩ :=
        scanRun_pad src isDigitU isDigitU_nul (src.length - p2 + k2x) p2 k2x
          (le_refl _) hp2b
      simp only [hscan]
      simp only [Bool.true_or, if_true]
      exact ⟨q, k3, by omega, hq2, rfl⟩
    · rw [if_neg hdig]
      obtain ⟨K2, hK2⟩ := huntick2 k2x
      obtain ⟨K3, hK3⟩ := huntick K2
      rw [hK2, hK3]
      by_cases hsd : (false || sd) = true
      · rw [if_pos hsd]
        exact ⟨p, K3, le_refl _, hp, rfl⟩
      · rw [if_neg hsd]
        by_cases hmax : digitsToNat 10
            ((sliceStr src fi li).filter (fun c => c != '_')) ≤ i64Max
        · rw [if_pos hmax]
          exact ⟨p, K3, le_refl _, hp, rfl⟩
        · rw [if_neg hmax]
  · rw [if_neg hce]
    obtain ⟨K2, hK2⟩ := huntick k1
    rw [hK2]
    by_cases hsd : (false || sd) = true
    · rw [if_pos hsd]
      exact ⟨p, K2, le_refl _, hp, rfl⟩
    · rw [if_neg hsd]
      by_cases hmax : digitsToNat 10
          ((sliceStr src fi li).filter (fun c => c != '_')) ≤ i64Max
      · rw [if_pos hmax]
        exact ⟨p, K2, le_refl _, hp, rfl⟩
      · rw [if_neg hmax]

/-- The number scanner keeps the stream padded (possibly with the cursor
pair pushed back twice after a failed radix prefix) and errors only with
the integer-overflow panics. -/
theorem lexNumber_pad (src : Str) (fi d : Nat) (p k : Nat) (hp : p ≤ src.length) :
    match lexNumber src src.length fi d (padStream src p k) with
    | Except.ok (_, s1) =>
        (∃ q k2, p ≤ q ∧ q ≤ src.length ∧ s1 = padStream src q k2) ∨
        (∃ c r k2, src.drop p = c :: r ∧ (c = 'x' ∨ c = 'o' ∨ c = 'b') ∧
          s1 = (p, c) :: padStream src p k2)
    | Except.error e => e = panicI64Msg ∨ e = panicU64Msg := by
  obtain ⟨c2, p1, k1, hp1a, hp1b, htick, huntick, hshape⟩ := tick_pad src p k hp
  simp only [lexNumber, htick]
  by_cases hdec : ((to_digit c2 10).isSome || c2 == '_' || c2 == '.' ||
      c2 == 'e' || c2 == 'E') = true
  · rw [if_pos hdec]
    obtain ⟨K2, hK2⟩ := huntick k1
    rw [hK2]
    obtain ⟨q, kq, hq1, hq2, hscan⟩ :=
      scanRun_pad src isDigitU isDigitU_nul (src.length - p + K2) p K2 (le_refl _) hp
    simp only [hscan]
    obtain ⟨cq, q1, kq1, hq1a, hq1b, htick2, huntick2, -⟩ := tick_pad src q kq hq2
    simp only [htick2]
    by_cases hdot : (cq == '.') = true
    · rw [if_pos hdot]
      obtain ⟨q2, kq2, hq2a, hq2b, hscan2⟩ :=
        scanRun_pad src isDigitU isDigitU_nul (src.length - q1 + kq1) q1 kq1
          (le_refl _) hq1b
      simp only [hscan2]
      have hd := lexDecimalExp_pad src fi q2 true q2 kq2 hq2b
      rcases hres : lexDecimalExp src src.length fi q2 true (padStream src q2 kq2)
        with e | ⟨tok, s1⟩
      · rw [hres] at hd
        exact Or.inl hd
      · rw [hres] at hd
        obtain ⟨q3, k3, hq3a, hq3b, heq⟩ := hd
        exact Or.inl ⟨q3, k3, by omega, hq3b, heq⟩
    · rw [if_neg hdot]
      obtain ⟨KQ, hKQ⟩ := huntick2 kq1
      rw [hKQ]
      have hd := lexDecimalExp_pad src fi q false q KQ hq2
      rcases hres : lexDecimalExp src src.length fi q false (padStream src q KQ)
        with e | ⟨tok, s1⟩
      · rw [hres] at hd
        exact Or.inl hd
      · rw [hres] at hd
        obtain ⟨q3, k3, hq3a, hq3b, heq⟩ := hd
        exact Or.inl ⟨q3, k3, by omega, hq3b, heq⟩
  · rw [if_neg hdec]
    by_cases hd0 : (d == 0) = true
    · rw [if_pos hd0]
      rcases hr : (if c2 == 'x' then some 16
          else if c2 == 'o' then some 8
          else if c2 == 'b' then some 2
          else none : Option Nat) with - | radix
      · obtain ⟨K2, hK2⟩ := huntick k1
        rw [hK2]
        exact Or.inl ⟨p, K2, le_refl _, hp, rfl⟩
      · obtain ⟨c3, p2, k2x, hp2a, hp2b, htick3, huntick3, -⟩ := tick_pad src p1 k1 hp1b
        simp only [htick3]
        by_cases hdig3 : (to_digit c3 radix).isSome = true
        · rw [if_pos hdig3]
          obtain ⟨q, kq, hq1, hq2, hrr⟩ :=
            radixRun_pad src radix (src.length - p2 + k2x) p2 k2x (le_refl _) hp2b
          rcases hrr2 : radixRun src.length radix (padStream src p2 k2x) with ⟨endIdx, s3⟩
          rw [hrr2] at hrr
          simp only [hrr2]
          simp only [] at hrr
          by_cases hmax : digitsToNat radix
              ((sliceStr src p1 endIdx).filter (fun c => c != '_')) ≤ u64Max
          · rw [if_pos hmax]
            exact Or.inl ⟨q, kq, by omega, hq2, hrr⟩
          · rw [if_neg hmax]
            exact Or.inr rfl
        · rw [if_neg hdig3]
          -- failed radix prefix: the second character is pushed back twice
          have hxob : c2 = 'x' ∨ c2 = 'o' ∨ c2 = 'b' := by
            by_cases hx : (c2 == 'x') = true
            · exact Or.inl (eq_of_beq hx)
            · rw [if_neg hx] at hr
              by_cases ho : (c2 == 'o') = true
              · exact Or.inr (Or.inl (eq_of_beq ho))
              · rw [if_neg ho] at hr
                by_cases hb : (c2 == 'b') = true
                · exact Or.inr (Or.inr (eq_of_beq hb))
                · rw [if_neg hb] at hr
                  cases hr
          have hdropP : ∃ r, src.drop p = c2 :: r := by
            rcases hshape with ⟨hnul, -⟩ | h
            · rcases hxob with h | h | h <;> simp [hnul] at h
            · exact h
          obtain ⟨r, hdropP⟩ := hdropP
          obtain ⟨KA, hKA⟩ := huntick3 k2x
          rw [hKA]
          obtain ⟨KB, hKB⟩ := huntick KA
          rw [hKB]
          exact Or.inr ⟨c2, r, KB, hdropP, hxob, rfl⟩
    · rw [if_neg hd0]
      obtain ⟨K2, hK2⟩ := huntick k1
      rw [hK2]
      exact Or.inl ⟨p, K2, le_refl _, hp, rfl⟩

/-- The best-match length found by the scan never exceeds the remaining
input (each accepted candidate is one of its prefixes). -/
theorem opScan_le (rest : Str) :
    ∀ (l : List Str) (tbl : Table) (maxLen : Nat) (best : Symbol),
      maxLen ≤ rest.length → (opScan rest l tbl maxLen best).1 ≤ rest.length := by
  intro l
  induction l with
  | nil => intro tbl maxLen best h; exact h
  | cons op rem ih =>
    intro tbl maxLen best h
    rw [opScan]
    split
    · exact h
    · split
      case isTrue hpre =>
        split
        case isTrue hgt =>
          simp only []
          exact ih _ _ _ (pref_length hpre)
        case isFalse hgt => exact ih _ _ _ h
      case isFalse hpre => exact ih _ _ _ h

/-- The operator block keeps the stream padded, emits `None` only when the
cursor pair is the NUL sentinel shape, and fails only with the
unrecognized-character assertion; in particular the consume loop always
terminates. -/
theorem lexOperator_pad (src : Str) (tbl : Table) (ops : List Str) (p : Nat) (c : Char)
    (P K : Nat) (hP : P ≤ src.length)
    (hpc : (c = '\x00' ∧ p = src.length ∧ P = src.length) ∨
      (∃ r, src.drop p = c :: r ∧ P = p + 1)) :
    match lexOperator src src.length tbl ops p c (padStream src P K) with
    | Except.ok (some _, s2, _) =>
        ∃ q k2, p < q ∧ q ≤ src.length ∧ s2 = padStream src q k2
    | Except.ok (none, _, _) => c = '\x00'
    | Except.error e => e = panicAssertMsg := by
  have hple : p ≤ src.length := by
    rcases hpc with ⟨-, rfl, -⟩ | ⟨r, hr, rfl⟩
    · exact le_refl _
    · have := pos_lt_of_cons hr
      omega
  obtain ⟨ec, P1, K1, hP1a, hP1b, htick, huntick, -⟩ := tick_pad src P K hP
  rcases hsc : opScan (src.drop p)
      (ops.drop (lowerBound ops (sliceStr src p P))) (tbl.intern []).2 0
      (tbl.intern []).1 with ⟨maxLen, best, tbl2⟩
  have hml : maxLen ≤ src.length - p := by
    have h1 := opScan_le (src.drop p)
      (ops.drop (lowerBound ops (sliceStr src p P))) (tbl.intern []).2 0
      (tbl.intern []).1 (by omega)
    rw [hsc] at h1
    simpa using h1
  simp only [lexOperator, htick, hsc]
  by_cases hml0 : maxLen = 0
  · subst hml0
    have hoc : opConsume src.length (p + 0) ((p, c) :: (P, ec) :: padStream src P1 K1) =
        Except.ok ((p, c) :: (P, ec) :: padStream src P1 K1) := by
      simp only [opConsume, Nat.add_zero]
      rw [if_pos (by simp)]
    rw [hoc]
    simp only [Nat.lt_irrefl, reduceIte, gt_iff_lt]
    by_cases hc0 : (c == '\x00') = true
    · rw [if_pos hc0]
      exact eq_of_beq hc0
    · rw [if_neg hc0]
  · have hmlpos : 0 < maxLen := Nat.pos_of_ne_zero hml0
    obtain ⟨K2, hK2⟩ := huntick K1
    have hoc0 : opConsume src.length (p + maxLen)
        ((p, c) :: (P, ec) :: padStream src P1 K1) =
        opConsume src.length (p + maxLen) ((P, ec) :: padStream src P1 K1) := by
      simp only [opConsume]
      rw [if_neg (by simp; omega)]
    rw [hoc0, hK2]
    have hPp1 : P = p + 1 := by
      rcases hpc with ⟨-, hpe, hPe⟩ | ⟨r, hr, hPe⟩
      · omega
      · exact hPe
    obtain ⟨k3, hoc⟩ := opConsume_pad src (src.length - P + K2) P K2 (p + maxLen)
      (le_refl _) (by omega) (by omega)
    rw [hoc]
    simp only [gt_iff_lt]
    rw [if_pos hmlpos]
    exact ⟨p + maxLen, k3, by omega, by omega, rfl⟩

/-- The string scanner keeps the stream padded and errors only with the
empty-unicode-escape panic. -/
theorem lexString_pad (src : Str) (fi : Nat) (P K : Nat) (hP : P ≤ src.length) :
    match lexString src src.length fi (padStream src P K) with
    | Except.ok (_, s1) => ∃ q k2, P ≤ q ∧ q ≤ src.length ∧ s1 = padStream src q k2
    | Except.error e => e = panicEmptyUnicodeMsg := by
  simp only [lexString]
  by_cases h2 : fi + 1 < src.length
  · rw [if_pos h2]
    rcases hs : strLoop src (fi + 1) [] (padStream src P K) with e | ⟨tok, s1⟩
    · exact strLoop_err src (fi + 1) [] _ e hs
    · have hsfx := strLoop_sfx src (fi + 1) [] _ _ _ hs
      have hpad : IsPad src (padStream src P K) := ⟨P, K, hP, rfl⟩
      obtain ⟨q, k2, hq1, hq2, heq⟩ := isPad_suffix hpad hsfx
      rw [streamPos_pad src P K hP] at hq1
      exact ⟨q, k2, hq1, hq2, heq⟩
  · rw [if_neg h2]
    exact ⟨P, K, le_refl _, hP, rfl⟩

/-- Cursor states reachable across calls of `Lexer::next`: the padded
suffix stream at the cursor, or — after a failed radix prefix — the cursor
pair (an `x`, `o` or `b`) pushed back twice. -/
def LexWF (src : Str) (p : Nat) (s : List (Nat × Char)) : Prop :=
  p ≤ src.length ∧
  ((∃ k, s = padStream src p k) ∨
   (∃ c r k, src.drop p = c :: r ∧ (c = 'x' ∨ c = 'o' ∨ c = 'b') ∧
     s = (p, c) :: padStream src p k))

theorem lexWF_pos {src : Str} {p : Nat} {s : List (Nat × Char)}
    (h : LexWF src p s) : streamPos src.length s = p := by
  obtain ⟨hp, hk | ⟨c, r, k, hd, hx, heq⟩⟩ := h
  · obtain ⟨k, rfl⟩ := hk
    exact streamPos_pad src p k hp
  · rw [heq]; rfl

/-- Master step lemma: from a reachable cursor state, `Lexer::next` either
emits a token and moves to a strictly later reachable state, signals the
end of stream only at the end of the source or at an embedded NUL, or
fails with one of the four real panics (in particular the operator consume
loop never diverges). -/
theorem lexNext_master (src : Str) (tbl : Table) (ops : List Str)
    (s : List (Nat × Char)) (p : Nat) (hwf : LexWF src p s) :
    match Lexer.next ⟨src, s, tbl, ops⟩ with
    | Except.ok (some _, st1) =>
        st1.source = src ∧ st1.operators = ops ∧ ∃ q, p < q ∧ LexWF src q st1.stream
    | Except.ok (none, _) => p = src.length ∨ '\x00' ∈ src
    | Except.error e => e = panicAssertMsg ∨ e = panicI64Msg ∨ e = panicU64Msg ∨
        e = panicEmptyUnicodeMsg := by
  obtain ⟨hple, hplain | ⟨c, r, k, hdrop, hxob, hseq⟩⟩ := hwf
  case intro.inr.intro.intro.intro.intro.intro =>
    subst hseq
    have hxid : is_xid_start c = true := by
      rcases hxob with rfl | rfl | rfl <;> decide
    have hcont : is_xid_continue c = true := by
      rcases hxob with rfl | rfl | rfl <;> decide
    have hplt : p < src.length := pos_lt_of_cons hdrop
    simp only [Lexer.next, tick, hxid, if_true]
    rw [pad_cons k hdrop]
    simp only [scanRun, hcont, if_true]
    obtain ⟨q, k2, hq1, hq2, hscan⟩ := scanRun_pad src is_xid_continue (by decide)
      (src.length - (p + 1) + k) (p + 1) k (le_refl _) (by omega)
    simp only [hscan]
    exact ⟨by trivial, by trivial, q, by omega, hq2, Or.inl ⟨k2, rfl⟩⟩
  case intro.inl =>
    obtain ⟨k, hseq⟩ := hplain
    subst hseq
    rcases hdrop : src.drop p with - | ⟨c, r⟩
    · have hpl : p = src.length := by
        have := List.length_drop p src
        rw [hdrop] at this
        simp at this
        omega
      subst hpl
      obtain ⟨c0, p1, k1, h1a, h1b, htick, hunt, hsh⟩ :=
        tick_pad src src.length k (le_refl _)
      have hc0 : c0 = '\x00' := by
        rcases hsh with ⟨h, -⟩ | ⟨r2, hr2⟩
        · exact h
        · rw [drop_of_ge (le_refl _)] at hr2
          cases hr2
      subst hc0
      have hp1 : p1 = src.length := by omega
      subst hp1
      simp only [Lexer.next, htick,
        show is_xid_start '\x00' = false from rfl,
        show is_whitespace '\x00' = false from rfl,
        show to_digit '\x00' 10 = none from rfl,
        show (('\x00' : Char) == '"') = false from rfl,
        show (('\x00' : Char) == '/') = false from rfl,
        Bool.false_eq_true, if_false]
      have hlo := lexOperator_pad src tbl ops src.length '\x00' src.length k1
        (le_refl _) (Or.inl ⟨rfl, rfl, rfl⟩)
      rcases hres : lexOperator src src.length tbl ops src.length '\x00'
          (padStream src src.length k1) with e | ⟨res, s2, tbl2⟩
      · rw [hres] at hlo
        simp only [hres]
        exact Or.inl hlo
      · rw [hres] at hlo
        rcases res with - | tok
        · simp only [hres]
          exact Or.inl (by trivial)
        · simp only [hres]
          obtain ⟨q, k2, hq1, hq2, heq⟩ := hlo
          exact ⟨by trivial, by trivial, q, hq1, hq2, Or.inl ⟨k2, heq⟩⟩
    · have hplt := pos_lt_of_cons hdrop
      have hstream : padStream src p k = (p, c) :: padStream src (p + 1) k :=
        pad_cons k hdrop
      have hcmem : c ∈ src := List.mem_of_mem_drop (by rw [hdrop]; exact List.mem_cons_self _ _)
      by_cases hxid : is_xid_start c = true
      · simp only [Lexer.next, hstream, tick, hxid, if_true]
        obtain ⟨q, k2, hq1, hq2, hscan⟩ := scanRun_pad src is_xid_continue (by decide)
          (src.length - (p + 1) + k) (p + 1) k (le_refl _) (by omega)
        simp only [hscan]
        exact ⟨by trivial, by trivial, q, by omega, hq2, Or.inl ⟨k2, rfl⟩⟩
      · rw [Bool.not_eq_true] at hxid
        by_cases hws : is_whitespace c = true
        · simp only [Lexer.next, hstream, tick, hxid, Bool.false_eq_true, if_false,
            hws, if_true]
          obtain ⟨q, k2, hq1, hq2, hscan⟩ := scanRun_pad src is_whitespace (by decide)
            (src.length - (p + 1) + k) (p + 1) k (le_refl _) (by omega)
          simp only [hscan]
          exact ⟨by trivial, by trivial, q, by omega, hq2, Or.inl ⟨k2, rfl⟩⟩
        · rw [Bool.not_eq_true] at hws
          rcases hdig : to_digit c 10 with - | d
          · by_cases hqt : (c == '"') = true
            · simp only [Lexer.next, hstream, tick, hxid, hws, Bool.false_eq_true,
                if_false, hdig, hqt, if_true]
              have hls := lexString_pad src p (p + 1) k (by omega)
              rcases hres : lexString src src.length p (padStream src (p + 1) k)
                with e | ⟨tok, s1⟩
              · rw [hres] at hls
                simp only [hres]
                exact Or.inr (Or.inr (Or.inr hls))
              · rw [hres] at hls
                obtain ⟨q2, k2, hq1, hq2, heq⟩ := hls
                simp only [hres]
                exact ⟨by trivial, by trivial, q2, by omega, hq2, Or.inl ⟨k2, heq⟩⟩
            · rw [Bool.not_eq_true] at hqt
              by_cases hsl : (c == '/') = true
              · obtain ⟨c2, P2, K2, h2a, h2b, htick2, hunt2, -⟩ :=
                  tick_pad src (p + 1) k (by omega)
                simp only [tick] at htick2
                simp only [Lexer.next, hstream, tick, hxid, hws, Bool.false_eq_true,
                  if_false, hdig, hqt, hsl, if_true, htick2]
                by_cases hst : (c2 == '*') = true
                · rw [if_pos hst]
                  obtain ⟨q2, k2, hcq1, hcq2, hceq⟩ := commentLoop_pad src p (p + 1) 1
                    (padStream src P2 K2) ⟨P2, K2, h2b, rfl⟩
                  rcases hcl : commentLoop src p (p + 1) 1 (padStream src P2 K2)
                    with ⟨tok, s2⟩
                  rw [hcl] at hceq
                  simp only [] at hceq
                  simp only [hcl]
                  rw [streamPos_pad src P2 K2 h2b] at hcq1
                  exact ⟨by trivial, by trivial, q2, by omega, hcq2, Or.inl ⟨k2, hceq⟩⟩
                · rw [if_neg hst]
                  obtain ⟨KX, hKX⟩ := hunt2 K2
                  rw [hKX]
                  have hlo := lexOperator_pad src tbl ops p c (p + 1) KX (by omega)
                    (Or.inr ⟨r, hdrop, rfl⟩)
                  rcases hres : lexOperator src src.length tbl ops p c
                      (padStream src (p + 1) KX) with e | ⟨res, s2, tbl2⟩
                  · rw [hres] at hlo
                    simp only [hres]
                    exact Or.inl hlo
                  · rw [hres] at hlo
                    rcases res with - | tok
                    · simp only [hres]
                      right
                      rw [← hlo]
                      exact hcmem
                    · simp only [hres]
                      obtain ⟨q2, k2, hq1, hq2, heq⟩ := hlo
                      exact ⟨by trivial, by trivial, q2, hq1, hq2, Or.inl ⟨k2, heq⟩⟩
              · simp only [Lexer.next, hstream, tick, hxid, hws, Bool.false_eq_true,
                  if_false, hdig, hqt, hsl]
                have hlo := lexOperator_pad src tbl ops p c (p + 1) k (by omega)
                  (Or.inr ⟨r, hdrop, rfl⟩)
                rcases hres : lexOperator src src.length tbl ops p c
                    (padStream src (p + 1) k) with e | ⟨res, s2, tbl2⟩
                · rw [hres] at hlo
                  simp only [hres]
                  exact Or.inl hlo
                · rw [hres] at hlo
                  rcases res with - | tok
                  · simp only [hres]
                    right
                    rw [← hlo]
                    exact hcmem
                  · simp only [hres]
                    obtain ⟨q2, k2, hq1, hq2, heq⟩ := hlo
                    exact ⟨by trivial, by trivial, q2, hq1, hq2, Or.inl ⟨k2, heq⟩⟩
          · simp only [Lexer.next, hstream, tick, hxid, hws, Bool.false_eq_true,
              if_false, hdig]
            have hln := lexNumber_pad src p d (p + 1) k (by omega)
            rcases hres : lexNumber src src.length p d (padStream src (p + 1) k)
              with e | ⟨tok, s1⟩
            · rw [hres] at hln
              simp only [hres]
              rcases hln with h | h
              · exact Or.inr (Or.inl h)
              · exact Or.inr (Or.inr (Or.inl h))
            · rw [hres] at hln
              simp only [hres]
              rcases hln with ⟨q2, k2, hq1, hq2, heq⟩ | ⟨c3, r3, k2, hd3, hx3, heq⟩
              · exact ⟨by trivial, by trivial, q2, by omega, hq2, Or.inl ⟨k2, heq⟩⟩
              · have : p + 1 < src.length := pos_lt_of_cons hd3
                exact ⟨by trivial, by trivial, p + 1, by omega, by omega,
                  Or.inr ⟨c3, r3, k2, hd3, hx3, heq⟩⟩

/-- Adjacent slices concatenate. -/
theorem sliceGlue (src : Str) {p q r : Nat} (h1 : p ≤ q) (h2 : q ≤ r) :
    sliceStr src p q ++ sliceStr src q r = sliceStr src p r := by
  unfold sliceStr
  rw [show r - p = (q - p) + (r - q) from by omega, List.take_add]
  congr 1
  rw [List.drop_drop]
  rw [show p + (q - p) = q from by omega]

theorem slice_all (src : Str) : sliceStr src 0 src.length = src := by
  unfold sliceStr
  simp

theorem slice_nil (src : Str) (p : Nat) : sliceStr src p p = [] := by
  unfold sliceStr
  simp

/-- Spine of the span-coverage argument: from any reachable state, a
successful full lex covers exactly the remaining source with non-empty,
contiguous spans. -/
theorem lexAll_spans (src : Str) (hnul : '\x00' ∉ src) :
    ∀ (fuel : Nat) (st : Lexer) (p : Nat) (l : List (Token × Nat × Nat)),
      st.source = src → LexWF src p st.stream →
      lexAll fuel st = Except.ok l →
      spansConcat src l = sliceStr src p src.length ∧
        ∀ t ∈ l, t.2.1 < t.2.2 ∧ t.2.2 ≤ src.length := by
  intro fuel
  induction fuel with
  | zero =>
    intro st p l hsrc hwf h
    cases h
  | succ fuel ih =>
    intro st p l hsrc hwf h
    obtain ⟨src0, s0, tbl0, ops0⟩ := st
    simp only [] at hsrc
    rw [hsrc] at h
    have hm := lexNext_master src tbl0 ops0 s0 p hwf
    rw [lexAll] at h
    simp only [] at h
    rcases hres : Lexer.next ⟨src, s0, tbl0, ops0⟩ with e | ⟨otok, st1⟩
    · rw [hres] at h
      cases h
    · rw [hres] at hm
      rcases otok with - | t
      · rw [hres] at h
        simp only [Except.ok.injEq] at h
        subst h
        rcases hm with hpl | hmem
        · constructor
          · rw [hpl, slice_nil]
            rfl
          · intro t ht
            cases ht
        · exact absurd hmem hnul
      · obtain ⟨hs1, ho1, q, hpq, hwf1⟩ := hm
        rw [hres] at h
        simp only [] at h
        rcases hall : lexAll fuel st1 with e2 | l2
        · rw [hall] at h
          cases h
        · rw [hall] at h
          simp only [Except.ok.injEq] at h
          subst h
          have hrec := ih st1 q l2 hs1 hwf1 hall
          have hposq : streamPos st1.source.length st1.stream = q := by
            rw [hs1]
            exact lexWF_pos hwf1
          have hpos0 : streamPos src.length s0 = p := lexWF_pos hwf
          have hqlen : q ≤ src.length := hwf1.1
          constructor
          · simp only [spansConcat, List.map_cons, List.foldr_cons]
            rw [hposq, hpos0]
            have := hrec.1
            simp only [spansConcat] at this
            rw [this]
            simp only [List.length_cons] at *
            exact sliceGlue src (le_of_lt hpq) hqlen
          · intro t2 ht2
            rcases List.mem_cons.mp ht2 with rfl | ht2
            · simp only [hposq, hpos0]
              exact ⟨hpq, hqlen⟩
            · exact hrec.2 t2 ht2

/-- C1 (amended): a call of `Lexer::next` at any cursor position either
returns `Some(token)` or the terminal `None` signal, or panics in exactly
one of the four real failure modes: the unrecognized-leading-character
assertion, the out-of-range `i64` or `u64` literal unwrap, or the empty
`\u\x7b\x7d` escape; no other fatal failure (in particular no divergence
of the operator consume loop) is possible. -/
theorem C1_error_characterization (src : Str) (p : Nat) (tbl : Table) (ops : List Str)
    (e : String) (hp : p ≤ src.length)
    (h : Lexer.next (lexerAt src p tbl ops) = Except.error e) :
    e = panicAssertMsg ∨ e = panicI64Msg ∨ e = panicU64Msg ∨
      e = panicEmptyUnicodeMsg := by
  have hpad : List.enumFrom p (src.drop p) = padStream src p 0 := by
    simp [padStream]
  have hm := lexNext_master src tbl ops (List.enumFrom p (src.drop p)) p
    ⟨hp, Or.inl ⟨0, hpad⟩⟩
  have heq : Lexer.next (lexerAt src p tbl ops) =
      Lexer.next ⟨src, List.enumFrom p (src.drop p), tbl, ops⟩ := rfl
  rw [heq] at h
  rw [h] at hm
  exact hm

/-- Witness for C1: the input `#` trips the assertion, and the message is
among the four characterized panics. -/
theorem C1_witness :
    (Lexer.next (lexerAt ['#'] 0 (Table.new 0) []) = Except.error panicAssertMsg) ∧
    (panicAssertMsg = panicAssertMsg ∨ panicAssertMsg = panicI64Msg ∨
      panicAssertMsg = panicU64Msg ∨ panicAssertMsg = panicEmptyUnicodeMsg) :=
  ⟨rfl, C1_error_characterization ['#'] 0 (Table.new 0) [] panicAssertMsg
    (by decide) rfl⟩

/-- C2 (amended): for every NUL-free input on which the lexer completes
without a panic, concatenating the source spans of successive tokens (in
order, including whitespace and comment tokens) reproduces the original
input exactly, and every span is contiguous and non-empty. -/
theorem C2_span_coverage (src : Str) (tbl : Table) (ops : List Str) (fuel : Nat)
    (l : List (Token × Nat × Nat)) (hnul : '\x00' ∉ src)
    (h : lexAll fuel (Lexer.mk0 src tbl ops) = Except.ok l) :
    spansConcat src l = src ∧ ∀ t ∈ l, t.2.1 < t.2.2 := by
  have hwf : LexWF src 0 (Lexer.mk0 src tbl ops).stream :=
    ⟨Nat.zero_le _, Or.inl ⟨0, by simp [Lexer.mk0, lexerAt, padStream]⟩⟩
  have hsp := lexAll_spans src hnul fuel (Lexer.mk0 src tbl ops) 0 l rfl hwf h
  rw [slice_all] at hsp
  exact ⟨hsp.1, fun t ht => (hsp.2 t ht).1⟩

/-- Witness for C2: lexing `a b` reproduces the input from the three
token spans, each non-empty. -/
theorem C2_witness :
    ∃ l, lexAll 9 (Lexer.mk0 ['a', ' ', 'b'] (Table.new 0) []) = Except.ok l ∧
      spansConcat ['a', ' ', 'b'] l = ['a', ' ', 'b'] ∧
      ∀ t ∈ l, t.2.1 < t.2.2 := by
  refine ⟨_, rfl, ?_, ?_⟩
  · exact (C2_span_coverage ['a', ' ', 'b'] (Table.new 0) [] 9 _ (by decide) rfl).1
  · exact (C2_span_coverage ['a', ' ', 'b'] (Table.new 0) [] 9 _ (by decide) rfl).2

end W3vm
